import Mathlib

/-!
# Verification of the 3D mine visualization motion / containment core

A shallow embedding, in Lean 4, of the vehicle-motion and spatial-containment
pipeline of the mine-visualization repository:

* `MathUtils`-style angle helpers and the exponential smoothing factor
  `1 - exp (-k * dt)` (`src/components/Vehicle.js`, `src/utils/MathUtils.js`);
* the `DrivableVolume` containment queries (`isPointInside`, `checkCollision`,
  `generateFromMineModel`, `computeInnerBounds`);
* the `Vehicle` motion state machine (`interpolatePosition`,
  `interpolateRotation`, `setSelected`, the setters), in both the plain-lerp
  variant of `src/components/Vehicle.js` and the collision-consulting variant
  bundled with `VehicleManager`;
* the `VehicleManager` registry (`selectVehicle`, `deselectVehicle`,
  `removeVehicle`);
* the `TrailObjectPool` (`acquire`, `release`, `clearAll`, `getStats`).

JavaScript numbers are modelled as real numbers (`ℝ`) for the continuous
motion code; colors and material scalars, which only ever hold a few discrete
values, are modelled with `ℕ`/`ℚ` so that vehicle-selection state stays
decidable; pool and registry bookkeeping is over `Nat`/`String` and fully
executable.  Scene-graph side effects (adding/removing meshes, geometry
buffers, logging) carry no information relevant to the verified properties
and are not modelled; the `mesh.position` / `mesh.rotation.y` transform slots
are modelled as the `meshPosition` / `meshRotY` fields of `Vehicle`.
-/

namespace MineViz

noncomputable section

/-! ## Vectors (THREE.Vector3 fragment used by the core) -/

/-- The fragment of `THREE.Vector3` used by the motion core. -/
@[ext]
structure Vec3 where
  x : ℝ
  y : ℝ
  z : ℝ

/-- `THREE.Vector3.lerp`: `this.x += (v.x - this.x) * alpha`, componentwise. -/
def Vec3.lerp (a b : Vec3) (alpha : ℝ) : Vec3 :=
  ⟨a.x + (b.x - a.x) * alpha, a.y + (b.y - a.y) * alpha, a.z + (b.z - a.z) * alpha⟩

/-- `THREE.Vector3.distanceTo`: Euclidean distance. -/
def Vec3.distanceTo (a b : Vec3) : ℝ :=
  Real.sqrt ((b.x - a.x) ^ 2 + (b.y - a.y) ^ 2 + (b.z - a.z) ^ 2)

/-- `THREE.Vector3.addScalar` (used by `computeInnerBounds` on `min`). -/
def Vec3.addScalar (a : Vec3) (s : ℝ) : Vec3 := ⟨a.x + s, a.y + s, a.z + s⟩

/-- `THREE.Vector3.subScalar` (used by `computeInnerBounds` on `max`). -/
def Vec3.subScalar (a : Vec3) (s : ℝ) : Vec3 := ⟨a.x - s, a.y - s, a.z - s⟩

/-! ## Angle conversions (THREE.MathUtils / src/utils/MathUtils.js) -/

/-- `degToRad`: `degrees * (Math.PI / 180)`. -/
def degToRad (degrees : ℝ) : ℝ := degrees * (Real.pi / 180)

/-- `radToDeg`: `radians * (180 / Math.PI)`. -/
def radToDeg (radians : ℝ) : ℝ := radians * (180 / Real.pi)

/-! ## The exponential smoothing factor

Both interpolators compute `lerpFactor = 1 - Math.exp(-k * deltaTime)`. -/

/-- `1 - Math.exp(-k * deltaTime)`, the frame-rate-independent lerp factor. -/
def smoothingFactor (k dt : ℝ) : ℝ := 1 - Real.exp (-k * dt)

/-! ## Normalization loops of `interpolateRotation`

```js
while (diff > Math.PI) diff -= Math.PI * 2;
while (diff < -Math.PI) diff += Math.PI * 2;
```
modelled as two well-founded recursions. -/

/-- First loop: `while (diff > Math.PI) diff -= Math.PI * 2`. -/
def reduceDown (x : ℝ) : ℝ :=
  if h : Real.pi < x then reduceDown (x - Real.pi * 2) else x
termination_by Nat.ceil ((x - Real.pi) / (2 * Real.pi))
decreasing_by
  have hpi := Real.pi_pos
  have h2pi : (0:ℝ) < 2 * Real.pi := by linarith
  have ha : 0 < (x - Real.pi) / (2 * Real.pi) := div_pos (by linarith) h2pi
  have harg : (x - Real.pi * 2 - Real.pi) / (2 * Real.pi)
      = (x - Real.pi) / (2 * Real.pi) - 1 := by
    field_simp
    ring
  rw [harg]
  have h1 : 1 ≤ Nat.ceil ((x - Real.pi) / (2 * Real.pi)) := Nat.ceil_pos.mpr ha
  have hle : Nat.ceil ((x - Real.pi) / (2 * Real.pi) - 1)
      ≤ Nat.ceil ((x - Real.pi) / (2 * Real.pi)) - 1 := by
    apply Nat.ceil_le.mpr
    have hcast : ((Nat.ceil ((x - Real.pi) / (2 * Real.pi)) - 1 : ℕ) : ℝ)
        = (Nat.ceil ((x - Real.pi) / (2 * Real.pi)) : ℝ) - 1 := by
      push_cast [h1]
      ring
    rw [hcast]
    have := Nat.le_ceil ((x - Real.pi) / (2 * Real.pi))
    linarith
  omega

/-- Second loop: `while (diff < -Math.PI) diff += Math.PI * 2`. -/
def reduceUp (x : ℝ) : ℝ :=
  if h : x < -Real.pi then reduceUp (x + Real.pi * 2) else x
termination_by Nat.ceil ((-Real.pi - x) / (2 * Real.pi))
decreasing_by
  have hpi := Real.pi_pos
  have h2pi : (0:ℝ) < 2 * Real.pi := by linarith
  have ha : 0 < (-Real.pi - x) / (2 * Real.pi) := div_pos (by linarith) h2pi
  have harg : (-Real.pi - (x + Real.pi * 2)) / (2 * Real.pi)
      = (-Real.pi - x) / (2 * Real.pi) - 1 := by
    field_simp
    ring
  rw [harg]
  have h1 : 1 ≤ Nat.ceil ((-Real.pi - x) / (2 * Real.pi)) := Nat.ceil_pos.mpr ha
  have hle : Nat.ceil ((-Real.pi - x) / (2 * Real.pi) - 1)
      ≤ Nat.ceil ((-Real.pi - x) / (2 * Real.pi)) - 1 := by
    apply Nat.ceil_le.mpr
    have hcast : ((Nat.ceil ((-Real.pi - x) / (2 * Real.pi)) - 1 : ℕ) : ℝ)
        = (Nat.ceil ((-Real.pi - x) / (2 * Real.pi)) : ℝ) - 1 := by
      push_cast [h1]
      ring
    rw [hcast]
    have := Nat.le_ceil ((-Real.pi - x) / (2 * Real.pi))
    linarith
  omega

/-- Both loops in sequence, exactly as `interpolateRotation` runs them. -/
def normLoop (x : ℝ) : ℝ := reduceUp (reduceDown x)

/-! ## DrivableVolume (`DrivableVolume.js`) -/

/-- The fragment of `THREE.Box3` the containment code uses. -/
structure Box3 where
  min : Vec3
  max : Vec3

/-- `THREE.Box3.containsPoint`: componentwise `min ≤ p ≤ max`. -/
def Box3.containsPoint (b : Box3) (p : Vec3) : Bool :=
  decide (b.min.x ≤ p.x ∧ p.x ≤ b.max.x ∧
          b.min.y ≤ p.y ∧ p.y ≤ b.max.y ∧
          b.min.z ≤ p.z ∧ p.z ≤ b.max.z)

/-- A loaded mine model, abstracted to what `generateFromMineModel` extracts
from it: the number of collected collision meshes and the axis-aligned
bounding box that `THREE.Box3().setFromObject(mineModel)` computes. -/
structure MineModel where
  meshCount : ℕ
  bounds : Box3

/-- `DrivableVolume` state: readiness flag, bounding box, inner bounds.
The retained mesh references are summarized by their count (they are only
consumed by the ray-casting queries, which are not modelled here). -/
structure DrivableVolume where
  isReady : Bool
  boundingBox : Option Box3
  innerBounds : Option Box3
  mineMeshCount : ℕ

/-- A freshly constructed `DrivableVolume` (`constructor`). -/
def DrivableVolume.init : DrivableVolume :=
  { isReady := false, boundingBox := none, innerBounds := none, mineMeshCount := 0 }

/-- `computeInnerBounds`: shrink the bounding box inward by the fixed margin
`0.5` (`min.addScalar(margin)`, `max.subScalar(margin)`); no-op when there is
no bounding box. -/
def DrivableVolume.computeInnerBounds (v : DrivableVolume) : DrivableVolume :=
  match v.boundingBox with
  | none => v
  | some bb => { v with innerBounds := some ⟨bb.min.addScalar 0.5, bb.max.subScalar 0.5⟩ }

/-- `generateFromMineModel`: early-returns on a missing model; otherwise
collects the meshes, computes the bounding box and inner bounds, and only
then sets `isReady = true`. -/
def DrivableVolume.generateFromMineModel (v : DrivableVolume) (mineModel : Option MineModel) :
    DrivableVolume :=
  match mineModel with
  | none => v
  | some m =>
      let v₁ := { v with mineMeshCount := m.meshCount, boundingBox := some m.bounds }
      let v₂ := v₁.computeInnerBounds
      { v₂ with isReady := true }

/-- `isPointInside`: permissive `true` unless ready with a bounding box;
otherwise membership in `innerBounds || boundingBox`. -/
def DrivableVolume.isPointInside (v : DrivableVolume) (point : Vec3) : Bool :=
  match v.isReady, v.boundingBox with
  | false, _ => true
  | true, none => true
  | true, some bb => (v.innerBounds.getD bb).containsPoint point

/-- Result record of `checkCollision`. -/
structure CollisionResult where
  position : Vec3
  blocked : Bool

/-- `checkCollision` — "DISABLED since paths are pre-validated": always passes
the target position through, never blocks. -/
def DrivableVolume.checkCollision (_v : DrivableVolume) (_fromPos toPos : Vec3) :
    CollisionResult :=
  { position := toPos, blocked := false }

/-! ## Vehicle (`src/components/Vehicle.js` and the `VehicleManager`-bundled
variant; their motion state and selection code coincide except for
`interpolatePosition`, so one state record serves both) -/

/-- The mutable scalars of a `THREE.Material` touched by selection
highlighting.  Colors are hex values (`ℕ`), the intensity a decimal (`ℚ`). -/
structure Material where
  color : ℕ
  emissive : ℕ
  emissiveIntensity : ℚ
deriving DecidableEq

/-- Vehicle state.  `meshPosition`/`meshRotY` stand for the scene transform
(`mesh.position`, `mesh.rotation.y`); `materials` are the live materials of
the mesh children; `originalMaterials` the clones stored by `setupMesh` at
creation.  Trail bookkeeping is omitted (it never feeds back into motion,
selection, or containment state). -/
@[ext]
structure Vehicle where
  vid : String
  vtype : String
  currentPosition : Vec3
  targetPosition : Vec3
  currentHeading : ℝ
  targetHeading : ℝ
  speed : ℝ
  status : String
  positionLerpSpeed : ℝ
  rotationLerpSpeed : ℝ
  drivableVolume : Option DrivableVolume
  lastValidPosition : Vec3
  hasValidPosition : Bool
  isSelected : Bool
  materials : List Material
  originalMaterials : List Material
  meshPosition : Vec3
  meshRotY : ℝ

/-- `isPositionValid`: permissive when no volume is set, else
`drivableVolume.isPointInside`. -/
def Vehicle.isPositionValid (v : Vehicle) (position : Vec3) : Bool :=
  match v.drivableVolume with
  | none => true
  | some vol => vol.isPointInside position

/-- `setPosition`: copy to current, target and mesh; track validity. -/
def Vehicle.setPosition (v : Vehicle) (position : Vec3) : Vehicle :=
  let v₁ := { v with currentPosition := position, targetPosition := position,
                     meshPosition := position }
  if v₁.isPositionValid position then
    { v₁ with lastValidPosition := position, hasValidPosition := true }
  else v₁

/-- `setTargetPosition` (components/Vehicle.js variant). -/
def Vehicle.setTargetPosition (v : Vehicle) (position : Vec3) : Vehicle :=
  { v with targetPosition := position, hasValidPosition := true }

/-- `setHeading`: set both headings and write
`rotation.y = degToRad(heading) + π`. -/
def Vehicle.setHeading (v : Vehicle) (heading : ℝ) : Vehicle :=
  { v with currentHeading := heading, targetHeading := heading,
           meshRotY := degToRad heading + Real.pi }

/-- `setTargetHeading`. -/
def Vehicle.setTargetHeading (v : Vehicle) (heading : ℝ) : Vehicle :=
  { v with targetHeading := heading }

/-- `interpolatePosition` of `src/components/Vehicle.js`: plain exponential
lerp toward the target, then copy to the mesh transform. -/
def Vehicle.interpolatePosition (v : Vehicle) (deltaTime : ℝ) : Vehicle :=
  let lerpFactor := smoothingFactor v.positionLerpSpeed deltaTime
  let newPos := v.currentPosition.lerp v.targetPosition lerpFactor
  { v with currentPosition := newPos, meshPosition := newPos }

/-- `interpolatePosition` of the `VehicleManager`-bundled vehicle: same lerp,
but routed through `drivableVolume.checkCollision` when a ready volume is
attached. -/
def Vehicle.interpolatePositionC (v : Vehicle) (deltaTime : ℝ) : Vehicle :=
  let lerpFactor := smoothingFactor v.positionLerpSpeed deltaTime
  let desiredPos := v.currentPosition.lerp v.targetPosition lerpFactor
  let newPos :=
    match v.drivableVolume with
    | some vol =>
        if vol.isReady then
          let result := vol.checkCollision v.currentPosition desiredPos
          if !result.blocked then result.position else v.currentPosition
        else desiredPos
    | none => desiredPos
  { v with currentPosition := newPos, meshPosition := newPos }

/-- `interpolateRotation` (identical in both vehicle variants): shortest-path
normalization of the yaw difference, exponential smoothing, then the
heading read-back `currentHeading = -radToDeg(rotation.y)`. -/
def Vehicle.interpolateRotation (v : Vehicle) (deltaTime : ℝ) : Vehicle :=
  let targetRotation := degToRad v.targetHeading
  let currentRotation := v.meshRotY
  let diff := normLoop (targetRotation - currentRotation)
  let lerpFactor := smoothingFactor v.rotationLerpSpeed deltaTime
  let newRot := currentRotation + diff * lerpFactor
  { v with meshRotY := newRot, currentHeading := -radToDeg newRot }

/-- `update(deltaTime)` of `src/components/Vehicle.js` (the trail refresh it
ends with touches only trail state, which is not modelled). -/
def Vehicle.update (v : Vehicle) (deltaTime : ℝ) : Vehicle :=
  (v.interpolatePosition deltaTime).interpolateRotation deltaTime

/-- `update(deltaTime)` of the `VehicleManager`-bundled vehicle. -/
def Vehicle.updateC (v : Vehicle) (deltaTime : ℝ) : Vehicle :=
  (v.interpolatePositionC deltaTime).interpolateRotation deltaTime

/-- A run of the render loop: one `update` per frame delta. -/
def Vehicle.advanceList (v : Vehicle) (dts : List ℝ) : Vehicle :=
  dts.foldl Vehicle.update v

end

/-- `setSelected`: highlight with the fixed emissive tint, or reset the
emissive channel to black — the stored `originalMaterials` are not consulted. -/
def Vehicle.setSelected (v : Vehicle) (selected : Bool) : Vehicle :=
  { v with isSelected := selected,
           materials := v.materials.map fun m =>
             if selected then { m with emissive := 0x00aaff, emissiveIntensity := 3/10 }
             else { m with emissive := 0x000000, emissiveIntensity := 0 } }

/-! ## VehicleManager (registry / selection bookkeeping) -/

/-- `VehicleManager` state: the `id → Vehicle` map (insertion-ordered
association list with unique keys, as a JS `Map`) and the selected id. -/
structure VehicleManager where
  vehicles : List (String × Vehicle)
  selectedVehicleId : Option String

/-- In-place mutation of one vehicle through the map reference
(`this.vehicles.get(id)` followed by a method call); a no-op when the id is
absent. -/
def updateVehicleAt (l : List (String × Vehicle)) (targetId : String)
    (f : Vehicle → Vehicle) : List (String × Vehicle) :=
  l.map fun kv => if kv.1 = targetId then (kv.1, f kv.2) else kv

/-- `selectVehicle(id)`: first un-highlight the previously selected vehicle
(when different and present), then - only if `id` is registered - highlight
it and record it as selected. -/
def VehicleManager.selectVehicle (m : VehicleManager) (targetId : String) : VehicleManager :=
  let m₁ :=
    match m.selectedVehicleId with
    | some sid =>
        if sid ≠ targetId then
          { m with vehicles := updateVehicleAt m.vehicles sid (Vehicle.setSelected · false) }
        else m
    | none => m
  match m₁.vehicles.lookup targetId with
  | some _ =>
      { m₁ with vehicles := updateVehicleAt m₁.vehicles targetId (Vehicle.setSelected · true),
                selectedVehicleId := some targetId }
  | none => m₁

/-- `deselectVehicle()`. -/
def VehicleManager.deselectVehicle (m : VehicleManager) : VehicleManager :=
  match m.selectedVehicleId with
  | none => m
  | some sid =>
      { m with vehicles := updateVehicleAt m.vehicles sid (Vehicle.setSelected · false),
               selectedVehicleId := none }

/-- `removeVehicle(id)`: detach and delete when present (then deselect if it
was the selected vehicle); silently do nothing for an unknown id. -/
def VehicleManager.removeVehicle (m : VehicleManager) (targetId : String) : VehicleManager :=
  match m.vehicles.lookup targetId with
  | none => m
  | some _ =>
      let m₁ := { m with vehicles := m.vehicles.filter fun kv => kv.1 != targetId }
      if m₁.selectedVehicleId = some targetId then m₁.deselectVehicle else m₁

/-! ## TrailObjectPool (`src/utils/TrailObjectPool.js`) -/

/-- One entry of `geometryPool`: the in-use flag and the owning vehicle id
(the pre-allocated tube geometry buffer itself carries no verified state). -/
structure PoolEntry where
  inUse : Bool
  ownerId : Option String
deriving DecidableEq

/-- The `trailData` record returned by `acquire`, with the pool entry held by
reference modelled as its index into `geometryPool`. -/
structure TrailData where
  entry : ℕ
  vehicleType : String
deriving DecidableEq

/-- Pool state: the entry list, the `activeTrails` map (insertion-ordered
association list with unique keys), and the size bounds. -/
structure TrailObjectPool where
  geometryPool : List PoolEntry
  activeTrails : List (String × TrailData)
  initialSize : ℕ
  maxSize : ℕ
deriving DecidableEq

/-- `createPoolEntry`: push one fresh free entry. -/
def TrailObjectPool.createPoolEntry (p : TrailObjectPool) : TrailObjectPool :=
  { p with geometryPool := p.geometryPool ++ [⟨false, none⟩] }

/-- The constructor followed by `initializePool`: `initialSize` pre-allocated
free entries. -/
def TrailObjectPool.construct (initialSize maxSize : ℕ) : TrailObjectPool :=
  { geometryPool := List.replicate initialSize ⟨false, none⟩,
    activeTrails := [],
    initialSize := initialSize,
    maxSize := maxSize }

/-- `acquire(vehicleId, vehicleType)`: return the existing trail for a known
id; otherwise claim the first free entry, growing the pool by one while under
`maxSize`; return `null` when the pool is exhausted. -/
def TrailObjectPool.acquire (p : TrailObjectPool) (vehicleId vehicleType : String) :
    Option TrailData × TrailObjectPool :=
  match p.activeTrails.lookup vehicleId with
  | some td => (some td, p)
  | none =>
      match p.geometryPool.findIdx? (fun e => !e.inUse) with
      | some i =>
          let td : TrailData := ⟨i, vehicleType⟩
          (some td,
           { p with geometryPool := p.geometryPool.set i ⟨true, some vehicleId⟩,
                    activeTrails := p.activeTrails ++ [(vehicleId, td)] })
      | none =>
          if p.geometryPool.length < p.maxSize then
            let p₁ := p.createPoolEntry
            let i := p.geometryPool.length
            let td : TrailData := ⟨i, vehicleType⟩
            (some td,
             { p₁ with geometryPool := p₁.geometryPool.set i ⟨true, some vehicleId⟩,
                       activeTrails := p₁.activeTrails ++ [(vehicleId, td)] })
          else (none, p)

/-- `release(vehicleId)`: free the held entry and drop the trail; no-op for
an unknown id. -/
def TrailObjectPool.release (p : TrailObjectPool) (vehicleId : String) : TrailObjectPool :=
  match p.activeTrails.lookup vehicleId with
  | none => p
  | some td =>
      { p with geometryPool := p.geometryPool.set td.entry ⟨false, none⟩,
               activeTrails := p.activeTrails.filter fun kv => kv.1 != vehicleId }

/-- `clearAll()`: free every held entry, then clear the map. -/
def TrailObjectPool.clearAll (p : TrailObjectPool) : TrailObjectPool :=
  { p with geometryPool :=
             p.activeTrails.foldl (fun g kv => g.set kv.2.entry ⟨false, none⟩) p.geometryPool,
           activeTrails := [] }

/-- The record produced by `getStats`. -/
structure PoolStats where
  poolSize : ℕ
  inUse : ℕ
  available : ℕ
  activeTrails : ℕ
deriving DecidableEq

/-- `getStats()`. -/
def TrailObjectPool.getStats (p : TrailObjectPool) : PoolStats :=
  let inUse := (p.geometryPool.filter fun e => e.inUse).length
  { poolSize := p.geometryPool.length,
    inUse := inUse,
    available := p.geometryPool.length - inUse,
    activeTrails := p.activeTrails.length }

/-- The pool operations claim C10 quantifies over. -/
inductive PoolOp where
  | acq (vehicleId vehicleType : String)
  | rel (vehicleId : String)
  | clear

/-- Apply one pool operation (the trail returned by `acquire` is discarded:
only the state evolution matters for the invariant). -/
def TrailObjectPool.applyOp (p : TrailObjectPool) : PoolOp → TrailObjectPool
  | .acq vid vt => (p.acquire vid vt).2
  | .rel vid => p.release vid
  | .clear => p.clearAll

/-- Apply a sequence of pool operations. -/
def TrailObjectPool.applyOps (p : TrailObjectPool) (ops : List PoolOp) : TrailObjectPool :=
  ops.foldl TrailObjectPool.applyOp p

/-- Apply a sequence of `acquire` calls (claim C8). -/
def TrailObjectPool.applyAcquires (p : TrailObjectPool) (l : List (String × String)) :
    TrailObjectPool :=
  l.foldl (fun q pr => (q.acquire pr.1 pr.2).2) p

/-- The pool/trail correspondence of claim C10: in-use entries and active
trails are in bijection (each trail owns the entry it indexes and that entry
stores its id; every in-use entry is owned; free entries store no id;
the two counts agree). -/
def PoolInvariant (p : TrailObjectPool) : Prop :=
  (∀ pr ∈ p.activeTrails, p.geometryPool[pr.2.entry]? = some ⟨true, some pr.1⟩) ∧
  (p.activeTrails.map Prod.fst).Nodup ∧
  (∀ (i : ℕ) (e : PoolEntry), p.geometryPool[i]? = some e → e.inUse = true →
    ∃ pr ∈ p.activeTrails, pr.2.entry = i) ∧
  (∀ (i : ℕ) (e : PoolEntry), p.geometryPool[i]? = some e → e.inUse = false →
    e.ownerId = none) ∧
  (p.geometryPool.filter fun e => e.inUse).length = p.activeTrails.length

/-! # Lemmas -/

/-! ## Smoothing factor -/

theorem smoothingFactor_nonneg {k dt : ℝ} (h : 0 ≤ k * dt) :
    0 ≤ smoothingFactor k dt := by
  have : Real.exp (-k * dt) ≤ 1 := by
    rw [Real.exp_le_one_iff]
    nlinarith
  simp only [smoothingFactor]
  linarith

theorem smoothingFactor_lt_one (k dt : ℝ) : smoothingFactor k dt < 1 := by
  have : 0 < Real.exp (-k * dt) := Real.exp_pos _
  simp only [smoothingFactor]
  linarith

theorem smoothingFactor_pos {k dt : ℝ} (hk : 0 < k) (hdt : 0 < dt) :
    0 < smoothingFactor k dt := by
  have : Real.exp (-k * dt) < 1 := by
    rw [Real.exp_lt_one_iff]
    nlinarith
  simp only [smoothingFactor]
  linarith

/-! ## Normalization loops -/

theorem reduceDown_le (x : ℝ) : reduceDown x ≤ Real.pi := by
  induction x using reduceDown.induct with
  | case1 x h ih => rw [reduceDown, dif_pos h]; exact ih
  | case2 x h => rw [reduceDown, dif_neg h]; linarith [not_lt.mp h]

theorem reduceDown_congr (x : ℝ) : ∃ k : ℤ, reduceDown x = x - 2 * Real.pi * k := by
  induction x using reduceDown.induct with
  | case1 x h ih =>
      obtain ⟨k, hk⟩ := ih
      refine ⟨k + 1, ?_⟩
      rw [reduceDown, dif_pos h, hk]
      push_cast
      ring
  | case2 x h => exact ⟨0, by rw [reduceDown, dif_neg h]; push_cast; ring⟩

theorem reduceDown_eq_self {x : ℝ} (h : x ≤ Real.pi) : reduceDown x = x := by
  rw [reduceDown, dif_neg (not_lt.mpr h)]

theorem reduceUp_ge (x : ℝ) : -Real.pi ≤ reduceUp x := by
  induction x using reduceUp.induct with
  | case1 x h ih => rw [reduceUp, dif_pos h]; exact ih
  | case2 x h => rw [reduceUp, dif_neg h]; linarith [not_lt.mp h]

theorem reduceUp_congr (x : ℝ) : ∃ k : ℤ, reduceUp x = x + 2 * Real.pi * k := by
  induction x using reduceUp.induct with
  | case1 x h ih =>
      obtain ⟨k, hk⟩ := ih
      refine ⟨k + 1, ?_⟩
      rw [reduceUp, dif_pos h, hk]
      push_cast
      ring
  | case2 x h => exact ⟨0, by rw [reduceUp, dif_neg h]; push_cast; ring⟩

theorem reduceUp_eq_self {x : ℝ} (h : -Real.pi ≤ x) : reduceUp x = x := by
  rw [reduceUp, dif_neg (not_lt.mpr h)]

theorem reduceUp_le {x : ℝ} (h : x ≤ Real.pi) : reduceUp x ≤ Real.pi := by
  induction x using reduceUp.induct with
  | case1 x hlt ih =>
      rw [reduceUp, dif_pos hlt]
      exact ih (by linarith [Real.pi_pos])
  | case2 x hge => rw [reduceUp, dif_neg hge]; exact h

/-- The applied rotation delta always lands in `[-π, π]`. -/
theorem normLoop_mem (x : ℝ) : -Real.pi ≤ normLoop x ∧ normLoop x ≤ Real.pi :=
  ⟨reduceUp_ge _, reduceUp_le (reduceDown_le x)⟩

/-- The applied rotation delta is congruent to the raw difference mod `2π`. -/
theorem normLoop_congr (x : ℝ) : ∃ k : ℤ, normLoop x = x - 2 * Real.pi * k := by
  obtain ⟨k₁, hk₁⟩ := reduceDown_congr x
  obtain ⟨k₂, hk₂⟩ := reduceUp_congr (reduceDown x)
  refine ⟨k₁ - k₂, ?_⟩
  rw [normLoop, hk₂, hk₁, Int.cast_sub]
  ring

theorem normLoop_eq_self {x : ℝ} (h₁ : -Real.pi ≤ x) (h₂ : x ≤ Real.pi) :
    normLoop x = x := by
  rw [normLoop, reduceDown_eq_self h₂, reduceUp_eq_self h₁]

/-- In the open interval the normalized representative is unique: shifting by
any whole number of turns comes back to the same value. -/
theorem normLoop_add_int_mul {y : ℝ} (k : ℤ) (h₁ : -Real.pi < y) (h₂ : y < Real.pi) :
    normLoop (y + 2 * Real.pi * k) = y := by
  obtain ⟨m, hm⟩ := normLoop_congr (y + 2 * Real.pi * k)
  obtain ⟨hlo, hhi⟩ := normLoop_mem (y + 2 * Real.pi * k)
  have hpi := Real.pi_pos
  have hdiff : normLoop (y + 2 * Real.pi * k) - y = 2 * Real.pi * (k - m) := by
    rw [hm]
    ring
  have habs : |2 * Real.pi * ((k : ℝ) - m)| < 2 * Real.pi := by
    rw [← hdiff]
    rw [abs_lt]
    constructor <;> nlinarith
  have hkm : k = m := by
    by_contra hne
    have h1 : (1 : ℝ) ≤ |(k : ℝ) - m| := by
      have : ((k - m : ℤ) : ℝ) = (k : ℝ) - m := by push_cast; ring
      rw [← this, ← Int.cast_abs]
      exact_mod_cast Int.one_le_abs (sub_ne_zero.mpr hne)
    rw [abs_mul, abs_of_pos (by linarith : (0:ℝ) < 2 * Real.pi)] at habs
    nlinarith
  rw [hm, hkm]
  ring

/-- Only for `0 < f ≤ 1` steps: after applying the normalized delta scaled by
`f`, the next normalized delta is the old one scaled by `1 - f` (the raw
difference keeps the same winding number). -/
theorem normLoop_after_step (τ rot : ℝ) {f : ℝ} (hf0 : 0 < f) (hf1 : f ≤ 1) :
    normLoop (τ - (rot + normLoop (τ - rot) * f)) = normLoop (τ - rot) * (1 - f) := by
  obtain ⟨k, hk⟩ := normLoop_congr (τ - rot)
  obtain ⟨hlo, hhi⟩ := normLoop_mem (τ - rot)
  have hpi := Real.pi_pos
  have harg : τ - (rot + normLoop (τ - rot) * f)
      = normLoop (τ - rot) * (1 - f) + 2 * Real.pi * k := by
    have : τ - rot = normLoop (τ - rot) + 2 * Real.pi * k := by linarith [hk]
    nlinarith [this]
  rw [harg]
  have habs : |normLoop (τ - rot) * (1 - f)| < Real.pi := by
    rw [abs_mul]
    have h₁ : |normLoop (τ - rot)| ≤ Real.pi := abs_le.mpr ⟨hlo, hhi⟩
    have h₂ : |1 - f| ≤ 1 - 0 := by
      rw [abs_le]
      constructor <;> linarith
    rcases eq_or_lt_of_le hf1 with heq | hlt
    · simp [← heq]
      linarith
    · have : |1 - f| < 1 := by rw [abs_lt]; constructor <;> linarith
      nlinarith [abs_nonneg (normLoop (τ - rot)), abs_nonneg (1 - f)]
  exact normLoop_add_int_mul k (by cases abs_lt.mp habs; linarith) (abs_lt.mp habs).2

/-! ## Unfolding and field-preservation facts about `update` -/

theorem Vehicle.update_eq (v : Vehicle) (dt : ℝ) :
    v.update dt =
      { v with
        currentPosition := v.currentPosition.lerp v.targetPosition
          (smoothingFactor v.positionLerpSpeed dt),
        meshPosition := v.currentPosition.lerp v.targetPosition
          (smoothingFactor v.positionLerpSpeed dt),
        meshRotY := v.meshRotY +
          normLoop (degToRad v.targetHeading - v.meshRotY) *
            smoothingFactor v.rotationLerpSpeed dt,
        currentHeading := -radToDeg (v.meshRotY +
          normLoop (degToRad v.targetHeading - v.meshRotY) *
            smoothingFactor v.rotationLerpSpeed dt) } := rfl

@[simp]
theorem Vehicle.advanceList_nil (v : Vehicle) : v.advanceList [] = v := rfl

@[simp]
theorem Vehicle.advanceList_cons (v : Vehicle) (dt : ℝ) (dts : List ℝ) :
    v.advanceList (dt :: dts) = (v.update dt).advanceList dts := rfl

theorem one_sub_smoothingFactor (k dt : ℝ) :
    1 - smoothingFactor k dt = Real.exp (-k * dt) := by
  simp [smoothingFactor]

/-! ## Closed forms for a whole run of the render loop -/

/-- Position after a run: exponential decay of the offset to the target,
controlled only by the total elapsed time. -/
theorem advanceList_currentPosition : ∀ (dts : List ℝ) (v : Vehicle),
    (v.advanceList dts).currentPosition =
      ⟨v.targetPosition.x + (v.currentPosition.x - v.targetPosition.x) *
          Real.exp (-v.positionLerpSpeed * dts.sum),
       v.targetPosition.y + (v.currentPosition.y - v.targetPosition.y) *
          Real.exp (-v.positionLerpSpeed * dts.sum),
       v.targetPosition.z + (v.currentPosition.z - v.targetPosition.z) *
          Real.exp (-v.positionLerpSpeed * dts.sum)⟩ := by
  intro dts
  induction dts with
  | nil =>
      intro v
      simp only [Vehicle.advanceList_nil, List.sum_nil, mul_zero, Real.exp_zero]
      ext <;> ring
  | cons dt rest ih =>
      intro v
      rw [Vehicle.advanceList_cons, ih (v.update dt)]
      have hE : Real.exp (-v.positionLerpSpeed * (dt :: rest).sum)
          = Real.exp (-v.positionLerpSpeed * dt) *
            Real.exp (-v.positionLerpSpeed * rest.sum) := by
        rw [← Real.exp_add, List.sum_cons]
        ring_nf
      simp only [Vehicle.update_eq, Vec3.lerp, smoothingFactor]
      rw [hE]
      ext <;> ring

/-- Yaw after a run of positive frame deltas: the initial normalized offset
decays exponentially with the total elapsed time, toward the fixed point
`meshRotY + normLoop (targetRotation - meshRotY)`. -/
theorem advanceList_meshRotY : ∀ (dts : List ℝ) (v : Vehicle),
    0 < v.rotationLerpSpeed → (∀ d ∈ dts, 0 < d) →
    (v.advanceList dts).meshRotY =
      v.meshRotY + normLoop (degToRad v.targetHeading - v.meshRotY)
        - normLoop (degToRad v.targetHeading - v.meshRotY) *
            Real.exp (-v.rotationLerpSpeed * dts.sum) := by
  intro dts
  induction dts with
  | nil =>
      intro v _ _
      simp only [Vehicle.advanceList_nil, List.sum_nil, mul_zero, Real.exp_zero]
      ring
  | cons dt rest ih =>
      intro v hk hpos
      have hdt : 0 < dt := hpos dt (by simp)
      have hrest : ∀ d ∈ rest, 0 < d := fun d hd => hpos d (by simp [hd])
      have hk' : 0 < (v.update dt).rotationLerpSpeed := by
        rw [Vehicle.update_eq]
        exact hk
      rw [Vehicle.advanceList_cons, ih (v.update dt) hk' hrest]
      have hf0 : 0 < smoothingFactor v.rotationLerpSpeed dt := smoothingFactor_pos hk hdt
      have hf1 : smoothingFactor v.rotationLerpSpeed dt ≤ 1 :=
        le_of_lt (smoothingFactor_lt_one _ _)
      have hstep := normLoop_after_step (degToRad v.targetHeading) v.meshRotY hf0 hf1
      have hE : Real.exp (-v.rotationLerpSpeed * (dt :: rest).sum)
          = Real.exp (-v.rotationLerpSpeed * dt) *
            Real.exp (-v.rotationLerpSpeed * rest.sum) := by
        rw [← Real.exp_add, List.sum_cons]
        ring_nf
      simp only [Vehicle.update_eq] at hstep ⊢
      rw [hstep, one_sub_smoothingFactor, hE]
      simp only [smoothingFactor]
      ring

/-- After at least one frame, the heading read-back slot holds exactly
`-radToDeg(rotation.y)`. -/
theorem advanceList_currentHeading : ∀ (dts : List ℝ) (v : Vehicle), dts ≠ [] →
    (v.advanceList dts).currentHeading = -radToDeg ((v.advanceList dts).meshRotY) := by
  intro dts
  induction dts with
  | nil => intro v h; exact absurd rfl h
  | cons dt rest ih =>
      intro v _
      cases rest with
      | nil => rfl
      | cons b l =>
          rw [Vehicle.advanceList_cons]
          exact ih (v.update dt) (by simp)

/-- `advanceList` never touches the target fields or the smoothing
constants. -/
theorem advanceList_constant_fields : ∀ (dts : List ℝ) (v : Vehicle),
    (v.advanceList dts).targetPosition = v.targetPosition ∧
    (v.advanceList dts).targetHeading = v.targetHeading ∧
    (v.advanceList dts).positionLerpSpeed = v.positionLerpSpeed ∧
    (v.advanceList dts).rotationLerpSpeed = v.rotationLerpSpeed := by
  intro dts
  induction dts with
  | nil => intro v; exact ⟨rfl, rfl, rfl, rfl⟩
  | cons dt rest ih =>
      intro v
      rw [Vehicle.advanceList_cons]
      exact ih (v.update dt)

/-! ## Distance scaling and an elapsed-time threshold for the error bound -/

theorem distanceTo_decay (c t : Vec3) {E : ℝ} (hE : 0 ≤ E) :
    Vec3.distanceTo ⟨t.x + (c.x - t.x) * E, t.y + (c.y - t.y) * E, t.z + (c.z - t.z) * E⟩ t
      = E * Vec3.distanceTo c t := by
  simp only [Vec3.distanceTo]
  have h : (t.x - (t.x + (c.x - t.x) * E)) ^ 2 + (t.y - (t.y + (c.y - t.y) * E)) ^ 2 +
      (t.z - (t.z + (c.z - t.z) * E)) ^ 2
      = E ^ 2 * ((t.x - c.x) ^ 2 + (t.y - c.y) ^ 2 + (t.z - c.z) ^ 2) := by
    ring
  rw [h, Real.sqrt_mul (sq_nonneg E), Real.sqrt_sq hE]

/-- For every positive rate and tolerance there is an elapsed-time threshold
past which the exponentially decayed error is below the tolerance. -/
theorem exists_decay_threshold (A : ℝ) {k ε : ℝ} (hA : 0 ≤ A) (hk : 0 < k) (hε : 0 < ε) :
    ∃ T₀ : ℝ, 0 < T₀ ∧ ∀ T, T₀ ≤ T → A * Real.exp (-k * T) < ε := by
  rcases eq_or_lt_of_le hA with hA0 | hApos
  · exact ⟨1, one_pos, fun T _ => by rw [← hA0]; simpa using hε⟩
  · refine ⟨max 1 ((Real.log (A / ε) + 1) / k), lt_of_lt_of_le one_pos (le_max_left _ _), ?_⟩
    intro T hT
    have hT' : (Real.log (A / ε) + 1) / k ≤ T := le_trans (le_max_right _ _) hT
    have hkT : Real.log (A / ε) + 1 ≤ k * T := by
      rw [div_le_iff₀ hk] at hT'
      linarith [hT']
    have hexp : Real.exp (-k * T) < ε / A := by
      have h1 : -k * T < Real.log (ε / A) := by
        have : Real.log (ε / A) = -Real.log (A / ε) := by
          rw [← Real.log_inv, inv_div]
        rw [this]
        linarith
      calc Real.exp (-k * T) < Real.exp (Real.log (ε / A)) := Real.exp_lt_exp.mpr h1
        _ = ε / A := Real.exp_log (div_pos hε hApos)
    calc A * Real.exp (-k * T) < A * (ε / A) := by
          exact mul_lt_mul_of_pos_left hexp hApos
      _ = ε := by field_simp

/-- Convexity of an interval under the lerp step. -/
theorem lerp_mem_of_mem {lo c t hi f : ℝ} (h1 : lo ≤ c) (h2 : c ≤ hi) (h3 : lo ≤ t)
    (h4 : t ≤ hi) (hf0 : 0 ≤ f) (hf1 : f ≤ 1) :
    lo ≤ c + (t - c) * f ∧ c + (t - c) * f ≤ hi := by
  constructor <;> nlinarith

/-! # Concrete sample states used by witnesses and counterexamples -/

noncomputable section

/-- The vehicle of the spec's end-to-end scenario (telemetry id `T1`), with
the default smoothing constants `5.0` / `3.0` and the placeholder
`dump_truck` body material (`color`/`emissive 0xff6600`,
`emissiveIntensity 1.0`). -/
def sampleVehicle : Vehicle :=
  { vid := "T1", vtype := "dump_truck",
    currentPosition := ⟨10, 0, 10⟩, targetPosition := ⟨20, 0, 10⟩,
    currentHeading := 90, targetHeading := 90, speed := 5, status := "moving",
    positionLerpSpeed := 5, rotationLerpSpeed := 3,
    drivableVolume := none,
    lastValidPosition := ⟨10, 0, 10⟩, hasValidPosition := true,
    isSelected := false,
    materials := [⟨0xff6600, 0xff6600, 1⟩],
    originalMaterials := [⟨0xff6600, 0xff6600, 1⟩],
    meshPosition := ⟨10, 0, 10⟩, meshRotY := 0 }

/-- A mine model whose geometry spans the box `[0,10]³`. -/
def sampleModel : MineModel := ⟨3, ⟨⟨0, 0, 0⟩, ⟨10, 10, 10⟩⟩⟩

/-- The containment volume generated from `sampleModel` (ready; inner bounds
`[0.5, 9.5]³`). -/
def sampleVolume : DrivableVolume :=
  DrivableVolume.init.generateFromMineModel (some sampleModel)

end

/-! # Claims -/

/-- **C3** (confirmed).  Position advancement is frame-rate independent: for
every vehicle and positive deltas `dt₁`, `dt₂`, running `interpolatePosition`
twice yields exactly the same vehicle state (in particular the same current
position) as one `interpolatePosition (dt₁ + dt₂)`, because the smoothing
factor is `1 - exp (-k_p · dt)`. -/
theorem claim_C3_position_framerate_independent (v : Vehicle) (dt₁ dt₂ : ℝ)
    (_h₁ : 0 < dt₁) (_h₂ : 0 < dt₂) :
    (v.interpolatePosition dt₁).interpolatePosition dt₂
      = v.interpolatePosition (dt₁ + dt₂) := by
  have hE : Real.exp (-v.positionLerpSpeed * (dt₁ + dt₂))
      = Real.exp (-v.positionLerpSpeed * dt₁) * Real.exp (-v.positionLerpSpeed * dt₂) := by
    rw [← Real.exp_add]
    ring_nf
  ext <;> simp only [Vehicle.interpolatePosition, Vec3.lerp, smoothingFactor] <;>
    rw [hE] <;> ring

/-- Witness for C3 at the sample vehicle and `dt₁ = dt₂ = 1`. -/
theorem claim_C3_witness :
    (0:ℝ) < 1 ∧
    (sampleVehicle.interpolatePosition 1).interpolatePosition 1
      = sampleVehicle.interpolatePosition (1 + 1) :=
  ⟨one_pos, claim_C3_position_framerate_independent sampleVehicle 1 1 one_pos one_pos⟩

/-- **C4** (corrected).  The rotation delta applied by `interpolateRotation`
is a shortest angular difference, congruent to the raw yaw difference modulo
a full turn; and from yaw `350°` toward target heading `10°` the applied
delta is `+20°` (through `0°/360°`), never the long way.  The claim's
normalization range `(-180°, 180°]` is corrected to the closed interval
`[-180°, 180°]` (in radians `[-π, π]`): the loop can return exactly `-180°`
(see the counterexample). -/
theorem claim_C4_shortest_path_rotation (v : Vehicle) (dt : ℝ) :
    ((v.interpolateRotation dt).meshRotY
      = v.meshRotY + normLoop (degToRad v.targetHeading - v.meshRotY) *
          smoothingFactor v.rotationLerpSpeed dt) ∧
    (∃ k : ℤ, normLoop (degToRad v.targetHeading - v.meshRotY)
      = (degToRad v.targetHeading - v.meshRotY) - 2 * Real.pi * k) ∧
    -Real.pi ≤ normLoop (degToRad v.targetHeading - v.meshRotY) ∧
    normLoop (degToRad v.targetHeading - v.meshRotY) ≤ Real.pi ∧
    (∀ k : ℤ, |normLoop (degToRad v.targetHeading - v.meshRotY)|
      ≤ |(degToRad v.targetHeading - v.meshRotY) - 2 * Real.pi * k|) ∧
    normLoop (degToRad 10 - degToRad 350) = degToRad 20 := by
  obtain ⟨hlo, hhi⟩ := normLoop_mem (degToRad v.targetHeading - v.meshRotY)
  obtain ⟨k₀, hk₀⟩ := normLoop_congr (degToRad v.targetHeading - v.meshRotY)
  have hpi := Real.pi_pos
  refine ⟨rfl, ⟨k₀, hk₀⟩, hlo, hhi, ?_, ?_⟩
  · intro k
    rcases eq_or_ne k k₀ with rfl | hne
    · rw [← hk₀]
    · have hshift : (degToRad v.targetHeading - v.meshRotY) - 2 * Real.pi * k
          = normLoop (degToRad v.targetHeading - v.meshRotY)
            + 2 * Real.pi * ((k₀ : ℝ) - k) := by
        rw [hk₀]
        ring
      have hm : (1:ℝ) ≤ |(k₀ : ℝ) - k| := by
        have hcast : ((k₀ - k : ℤ) : ℝ) = (k₀ : ℝ) - k := by push_cast; ring
        rw [← hcast, ← Int.cast_abs]
        exact_mod_cast Int.one_le_abs (sub_ne_zero.mpr (Ne.symm hne))
      have htri : |2 * Real.pi * ((k₀ : ℝ) - k)|
            - |normLoop (degToRad v.targetHeading - v.meshRotY)
              + 2 * Real.pi * ((k₀ : ℝ) - k)|
          ≤ |normLoop (degToRad v.targetHeading - v.meshRotY)| := by
        have h := abs_sub_abs_le_abs_sub (2 * Real.pi * ((k₀ : ℝ) - k))
          (normLoop (degToRad v.targetHeading - v.meshRotY)
            + 2 * Real.pi * ((k₀ : ℝ) - k))
        have harg : 2 * Real.pi * ((k₀ : ℝ) - k)
            - (normLoop (degToRad v.targetHeading - v.meshRotY)
              + 2 * Real.pi * ((k₀ : ℝ) - k))
            = -(normLoop (degToRad v.targetHeading - v.meshRotY)) := by ring
        rwa [harg, abs_neg] at h
      have h2pi : 2 * Real.pi ≤ |2 * Real.pi * ((k₀ : ℝ) - k)| := by
        rw [abs_mul, abs_of_pos (by linarith : (0:ℝ) < 2 * Real.pi)]
        nlinarith
      have habs : |normLoop (degToRad v.targetHeading - v.meshRotY)| ≤ Real.pi :=
        abs_le.mpr ⟨hlo, hhi⟩
      rw [hshift]
      linarith
  · have h1 : degToRad 10 - degToRad 350 = degToRad 20 - 2 * Real.pi := by
      simp only [degToRad]
      ring
    have h2 : -Real.pi < degToRad 20 := by
      simp only [degToRad]
      nlinarith
    have h3 : degToRad 20 < Real.pi := by
      simp only [degToRad]
      nlinarith
    have := normLoop_add_int_mul (y := degToRad 20) (-1) h2 h3
    rw [h1]
    calc normLoop (degToRad 20 - 2 * Real.pi)
        = normLoop (degToRad 20 + 2 * Real.pi * (-1 : ℤ)) := by norm_num [sub_eq_add_neg]
      _ = degToRad 20 := this

/-- Counterexample to C4 as stated: a vehicle placed by `setHeading(0)` has
`rotation.y = π`; with target heading `0°` the applied delta is exactly
`-π = -180°`, which is *not* in the claimed half-open range `(-180°, 180°]`. -/
theorem claim_C4_counterexample :
    normLoop (degToRad ((sampleVehicle.setHeading 0).targetHeading)
      - (sampleVehicle.setHeading 0).meshRotY) = -Real.pi ∧
    ¬ (-Real.pi < normLoop (degToRad ((sampleVehicle.setHeading 0).targetHeading)
      - (sampleVehicle.setHeading 0).meshRotY)) := by
  have hpi := Real.pi_pos
  have harg : degToRad ((sampleVehicle.setHeading 0).targetHeading)
      - (sampleVehicle.setHeading 0).meshRotY = -Real.pi := by
    simp [Vehicle.setHeading, degToRad]
  have hval : normLoop (-Real.pi) = -Real.pi :=
    normLoop_eq_self (le_refl _) (by linarith)
  rw [harg, hval]
  exact ⟨rfl, lt_irrefl _⟩

/-- **C1** (corrected).  The per-frame update applies *no* containment:
`checkCollision` always returns the unblocked pass-through, so `updateC`
writes the raw exponential lerp to the scene transform.  What does hold is
the convexity consequence: whenever both the current and the target position
lie inside the volume (and the step factor is a true interpolation weight),
the written position also lies inside.  A vehicle whose target is outside a
ready volume leaves it — see the counterexample. -/
theorem claim_C1_containment_advisory (v : Vehicle) (vol : DrivableVolume) (dt : ℝ)
    (hvol : v.drivableVolume = some vol)
    (hdt : 0 ≤ dt) (hk : 0 ≤ v.positionLerpSpeed)
    (hcur : vol.isPointInside v.currentPosition = true)
    (htgt : vol.isPointInside v.targetPosition = true) :
    (∀ p q : Vec3, vol.checkCollision p q = ⟨q, false⟩) ∧
    vol.isPointInside ((v.updateC dt).meshPosition) = true := by
  refine ⟨fun p q => rfl, ?_⟩
  have hf0 : 0 ≤ smoothingFactor v.positionLerpSpeed dt :=
    smoothingFactor_nonneg (mul_nonneg hk hdt)
  have hf1 : smoothingFactor v.positionLerpSpeed dt ≤ 1 :=
    le_of_lt (smoothingFactor_lt_one _ _)
  have hmesh : (v.updateC dt).meshPosition
      = v.currentPosition.lerp v.targetPosition (smoothingFactor v.positionLerpSpeed dt) := by
    simp only [Vehicle.updateC, Vehicle.interpolatePositionC, Vehicle.interpolateRotation,
      DrivableVolume.checkCollision, hvol]
    rcases vol.isReady with _ | _ <;> simp
  rw [hmesh]
  rcases hready : vol.isReady with _ | _
  · simp [DrivableVolume.isPointInside, hready]
  · rcases hbb : vol.boundingBox with _ | bb
    · simp [DrivableVolume.isPointInside, hready, hbb]
    · simp only [DrivableVolume.isPointInside, hready, hbb] at hcur htgt ⊢
      simp only [Box3.containsPoint, decide_eq_true_eq] at hcur htgt ⊢
      obtain ⟨c1, c2, c3, c4, c5, c6⟩ := hcur
      obtain ⟨t1, t2, t3, t4, t5, t6⟩ := htgt
      simp only [Vec3.lerp]
      exact ⟨(lerp_mem_of_mem c1 c2 t1 t2 hf0 hf1).1,
             (lerp_mem_of_mem c1 c2 t1 t2 hf0 hf1).2,
             (lerp_mem_of_mem c3 c4 t3 t4 hf0 hf1).1,
             (lerp_mem_of_mem c3 c4 t3 t4 hf0 hf1).2,
             (lerp_mem_of_mem c5 c6 t5 t6 hf0 hf1).1,
             (lerp_mem_of_mem c5 c6 t5 t6 hf0 hf1).2⟩

/-- The C1 configuration that violates the claim: a vehicle inside the ready
sample volume whose telemetry target `(100, 5, 5)` lies outside it. -/
noncomputable def cexC1Vehicle : Vehicle :=
  { sampleVehicle with
    currentPosition := ⟨5, 5, 5⟩, meshPosition := ⟨5, 5, 5⟩,
    targetPosition := ⟨100, 5, 5⟩,
    drivableVolume := some sampleVolume }

/-- Counterexample to C1 as stated: with the ready containment volume
attached, one `update` of the render loop (Δt = 1 s) writes a scene position
with `isPointInside = false` — the vehicle appears outside the drivable
volume. -/
theorem claim_C1_counterexample :
    sampleVolume.isReady = true ∧
    cexC1Vehicle.drivableVolume = some sampleVolume ∧
    sampleVolume.isPointInside ((cexC1Vehicle.updateC 1).meshPosition) = false := by
  refine ⟨rfl, rfl, ?_⟩
  have h6 : (6:ℝ) ≤ Real.exp 5 := by
    have := Real.add_one_le_exp (5:ℝ)
    linarith
  have hexp : Real.exp (-(5:ℝ) * 1) ≤ 1 / 6 := by
    rw [show (-(5:ℝ) * 1) = -5 by ring, Real.exp_neg]
    rw [inv_le_comm₀ (by positivity) (by norm_num)]
    linarith
  have hmesh : (cexC1Vehicle.updateC 1).meshPosition
      = Vec3.lerp ⟨5, 5, 5⟩ ⟨100, 5, 5⟩ (smoothingFactor 5 1) := rfl
  have hx : (9.5:ℝ) < 5 + (100 - 5) * smoothingFactor 5 1 := by
    simp only [smoothingFactor]
    nlinarith
  rw [hmesh]
  simp only [DrivableVolume.isPointInside, sampleVolume, sampleModel,
    DrivableVolume.generateFromMineModel, DrivableVolume.computeInnerBounds,
    DrivableVolume.init, Option.getD, Box3.containsPoint, Vec3.lerp,
    Vec3.addScalar, Vec3.subScalar]
  rw [decide_eq_false_iff_not]
  intro hmem
  have := hmem.2.1
  norm_num at this
  linarith

/-- Witness for the amended C1 at a concrete inside configuration. -/
noncomputable def wC1Vehicle : Vehicle :=
  { sampleVehicle with
    currentPosition := ⟨1, 1, 1⟩, meshPosition := ⟨1, 1, 1⟩,
    targetPosition := ⟨2, 2, 2⟩,
    drivableVolume := some sampleVolume }

theorem claim_C1_witness :
    wC1Vehicle.drivableVolume = some sampleVolume ∧
    (0:ℝ) ≤ 1 ∧ (0:ℝ) ≤ wC1Vehicle.positionLerpSpeed ∧
    sampleVolume.isPointInside wC1Vehicle.currentPosition = true ∧
    sampleVolume.isPointInside wC1Vehicle.targetPosition = true ∧
    ((∀ p q : Vec3, sampleVolume.checkCollision p q = ⟨q, false⟩) ∧
      sampleVolume.isPointInside ((wC1Vehicle.updateC 1).meshPosition) = true) := by
  have hcur : sampleVolume.isPointInside wC1Vehicle.currentPosition = true := by
    simp only [DrivableVolume.isPointInside, sampleVolume, sampleModel,
      DrivableVolume.generateFromMineModel, DrivableVolume.computeInnerBounds,
      DrivableVolume.init, Option.getD, Box3.containsPoint, Vec3.addScalar,
      Vec3.subScalar, wC1Vehicle]
    rw [decide_eq_true_eq]
    norm_num
  have htgt : sampleVolume.isPointInside wC1Vehicle.targetPosition = true := by
    simp only [DrivableVolume.isPointInside, sampleVolume, sampleModel,
      DrivableVolume.generateFromMineModel, DrivableVolume.computeInnerBounds,
      DrivableVolume.init, Option.getD, Box3.containsPoint, Vec3.addScalar,
      Vec3.subScalar, wC1Vehicle]
    rw [decide_eq_true_eq]
    norm_num
  refine ⟨rfl, by norm_num, by norm_num [wC1Vehicle, sampleVehicle], hcur, htgt, ?_⟩
  exact claim_C1_containment_advisory wC1Vehicle sampleVolume 1 rfl (by norm_num)
    (by norm_num [wC1Vehicle, sampleVehicle]) hcur htgt

/-- **C2** (corrected).  For a fixed target and any run of positive frame
deltas whose total elapsed time is large, the current *position* does
converge to the target position; but the `currentHeading` field converges to
`-radToDeg (rot₀ + normLoop (degToRad targetHeading - rot₀))`, which is
congruent to the *negation* of the target heading modulo 360° (the read-back
`currentHeading = -radToDeg(rotation.y)` flips the sign), not to the target
heading itself — see the counterexample. -/
theorem claim_C2_amended_convergence (v : Vehicle) (ε : ℝ)
    (hkp : 0 < v.positionLerpSpeed) (hkr : 0 < v.rotationLerpSpeed) (hε : 0 < ε) :
    (∃ k : ℤ, -radToDeg (v.meshRotY + normLoop (degToRad v.targetHeading - v.meshRotY))
        = -v.targetHeading + 360 * k) ∧
    ∃ T₀ : ℝ, 0 < T₀ ∧ ∀ dts : List ℝ, (∀ d ∈ dts, 0 < d) → T₀ ≤ dts.sum →
      Vec3.distanceTo (v.advanceList dts).currentPosition v.targetPosition < ε ∧
      |(v.advanceList dts).currentHeading
        - (-radToDeg (v.meshRotY + normLoop (degToRad v.targetHeading - v.meshRotY)))| < ε := by
  have hpi := Real.pi_pos
  constructor
  · obtain ⟨k, hk⟩ := normLoop_congr (degToRad v.targetHeading - v.meshRotY)
    refine ⟨k, ?_⟩
    rw [hk]
    simp only [radToDeg, degToRad]
    field_simp
    ring
  · have hD : 0 ≤ Vec3.distanceTo v.currentPosition v.targetPosition :=
      Real.sqrt_nonneg _
    have hd₀deg : 0 ≤ |normLoop (degToRad v.targetHeading - v.meshRotY)| * (180 / Real.pi) :=
      mul_nonneg (abs_nonneg _) (by positivity)
    have hA : 0 ≤ max (Vec3.distanceTo v.currentPosition v.targetPosition)
        (|normLoop (degToRad v.targetHeading - v.meshRotY)| * (180 / Real.pi)) :=
      le_trans hD (le_max_left _ _)
    have hkmin : 0 < min v.positionLerpSpeed v.rotationLerpSpeed := lt_min hkp hkr
    obtain ⟨T₀, hT₀pos, hT₀⟩ := exists_decay_threshold
      (max (Vec3.distanceTo v.currentPosition v.targetPosition)
        (|normLoop (degToRad v.targetHeading - v.meshRotY)| * (180 / Real.pi)))
      hA hkmin hε
    refine ⟨T₀, hT₀pos, ?_⟩
    intro dts hpos hsum
    have hTnn : 0 ≤ dts.sum := le_trans (le_of_lt hT₀pos) hsum
    have hbound := hT₀ dts.sum hsum
    constructor
    · rw [advanceList_currentPosition dts v,
        distanceTo_decay _ _ (Real.exp_pos (-v.positionLerpSpeed * dts.sum)).le]
      have hexp_le : Real.exp (-v.positionLerpSpeed * dts.sum)
          ≤ Real.exp (-(min v.positionLerpSpeed v.rotationLerpSpeed) * dts.sum) := by
        apply Real.exp_le_exp.mpr
        nlinarith [min_le_left v.positionLerpSpeed v.rotationLerpSpeed]
      calc Real.exp (-v.positionLerpSpeed * dts.sum)
            * Vec3.distanceTo v.currentPosition v.targetPosition
          ≤ Real.exp (-(min v.positionLerpSpeed v.rotationLerpSpeed) * dts.sum)
            * max (Vec3.distanceTo v.currentPosition v.targetPosition)
              (|normLoop (degToRad v.targetHeading - v.meshRotY)| * (180 / Real.pi)) :=
            mul_le_mul hexp_le (le_max_left _ _) hD (Real.exp_pos _).le
        _ < ε := by rw [mul_comm]; exact hbound
    · have hne : dts ≠ [] := by
        intro h0
        rw [h0] at hsum
        simp only [List.sum_nil] at hsum
        linarith
      have hval : (v.advanceList dts).currentHeading
          - (-radToDeg (v.meshRotY + normLoop (degToRad v.targetHeading - v.meshRotY)))
          = radToDeg (normLoop (degToRad v.targetHeading - v.meshRotY)
              * Real.exp (-v.rotationLerpSpeed * dts.sum)) := by
        rw [advanceList_currentHeading dts v hne, advanceList_meshRotY dts v hkr hpos]
        simp only [radToDeg]
        ring
      rw [hval]
      have habs : |radToDeg (normLoop (degToRad v.targetHeading - v.meshRotY)
            * Real.exp (-v.rotationLerpSpeed * dts.sum))|
          = (|normLoop (degToRad v.targetHeading - v.meshRotY)| * (180 / Real.pi))
            * Real.exp (-v.rotationLerpSpeed * dts.sum) := by
        simp only [radToDeg, abs_mul]
        rw [abs_of_pos (Real.exp_pos _), abs_of_pos (by positivity : (0:ℝ) < 180 / Real.pi)]
        ring
      rw [habs]
      have hexp_le : Real.exp (-v.rotationLerpSpeed * dts.sum)
          ≤ Real.exp (-(min v.positionLerpSpeed v.rotationLerpSpeed) * dts.sum) := by
        apply Real.exp_le_exp.mpr
        nlinarith [min_le_right v.positionLerpSpeed v.rotationLerpSpeed]
      calc (|normLoop (degToRad v.targetHeading - v.meshRotY)| * (180 / Real.pi))
            * Real.exp (-v.rotationLerpSpeed * dts.sum)
          ≤ max (Vec3.distanceTo v.currentPosition v.targetPosition)
              (|normLoop (degToRad v.targetHeading - v.meshRotY)| * (180 / Real.pi))
            * Real.exp (-(min v.positionLerpSpeed v.rotationLerpSpeed) * dts.sum) :=
            mul_le_mul (le_max_right _ _) hexp_le (Real.exp_pos _).le hA
        _ < ε := hbound

/-- Witness for the amended C2 at the sample vehicle and `ε = 1`. -/
theorem claim_C2_witness :
    (0:ℝ) < sampleVehicle.positionLerpSpeed ∧
    (0:ℝ) < sampleVehicle.rotationLerpSpeed ∧ (0:ℝ) < 1 ∧
    ((∃ k : ℤ, -radToDeg (sampleVehicle.meshRotY +
          normLoop (degToRad sampleVehicle.targetHeading - sampleVehicle.meshRotY))
        = -sampleVehicle.targetHeading + 360 * k) ∧
      ∃ T₀ : ℝ, 0 < T₀ ∧ ∀ dts : List ℝ, (∀ d ∈ dts, 0 < d) → T₀ ≤ dts.sum →
        Vec3.distanceTo (sampleVehicle.advanceList dts).currentPosition
          sampleVehicle.targetPosition < 1 ∧
        |(sampleVehicle.advanceList dts).currentHeading
          - (-radToDeg (sampleVehicle.meshRotY +
              normLoop (degToRad sampleVehicle.targetHeading - sampleVehicle.meshRotY)))| < 1) :=
  ⟨by norm_num [sampleVehicle], by norm_num [sampleVehicle], one_pos,
    claim_C2_amended_convergence sampleVehicle 1 (by norm_num [sampleVehicle])
      (by norm_num [sampleVehicle]) one_pos⟩

/-- The C2 counterexample vehicle: at rest with yaw `0`, target heading
`90°`, default smoothing constants; position already equals its target. -/
noncomputable def cexC2Vehicle : Vehicle :=
  { sampleVehicle with
    currentPosition := ⟨10, 0, 10⟩, targetPosition := ⟨10, 0, 10⟩,
    meshPosition := ⟨10, 0, 10⟩,
    meshRotY := 0, currentHeading := 0, targetHeading := 90 }

/-- Counterexample to C2 as stated: for the vehicle with target heading
`90°`, `currentHeading` converges to `-90°` (the yaw converges to `π/2` and
the read-back negates it), so it never comes within `ε = 1` degree of the
target heading, whatever the elapsed time. -/
theorem claim_C2_counterexample :
    ¬ (∀ ε : ℝ, 0 < ε → ∃ T₀ : ℝ, ∀ dts : List ℝ,
        (∀ d ∈ dts, 0 < d) → T₀ ≤ dts.sum →
        Vec3.distanceTo (cexC2Vehicle.advanceList dts).currentPosition
          cexC2Vehicle.targetPosition < ε ∧
        |(cexC2Vehicle.advanceList dts).currentHeading
          - cexC2Vehicle.targetHeading| < ε) := by
  intro h
  have hpi := Real.pi_pos
  obtain ⟨T₀, hT⟩ := h 1 one_pos
  have hpos : ∀ d ∈ [max T₀ 1], 0 < d := by
    intro d hd
    simp only [List.mem_singleton] at hd
    subst hd
    exact lt_of_lt_of_le one_pos (le_max_right _ _)
  have hsum : T₀ ≤ [max T₀ 1].sum := by
    simp only [List.sum_cons, List.sum_nil, add_zero]
    exact le_max_left _ _
  obtain ⟨-, hhead⟩ := hT [max T₀ 1] hpos hsum
  have hS : (0:ℝ) ≤ [max T₀ 1].sum := by
    simp only [List.sum_cons, List.sum_nil, add_zero]
    exact le_trans zero_le_one (le_max_right _ _)
  have hkr : (0:ℝ) < cexC2Vehicle.rotationLerpSpeed := by
    norm_num [cexC2Vehicle, sampleVehicle]
  have hrot := advanceList_meshRotY [max T₀ 1] cexC2Vehicle hkr hpos
  have hch := advanceList_currentHeading [max T₀ 1] cexC2Vehicle (by simp)
  have hd₀ : normLoop (degToRad cexC2Vehicle.targetHeading - cexC2Vehicle.meshRotY)
      = Real.pi / 2 := by
    have h90 : degToRad cexC2Vehicle.targetHeading - cexC2Vehicle.meshRotY
        = Real.pi / 2 := by
      simp only [cexC2Vehicle, sampleVehicle, degToRad]
      norm_num
      ring
    rw [h90]
    exact normLoop_eq_self (by linarith) (by linarith)
  have hE0 : 0 < Real.exp (-cexC2Vehicle.rotationLerpSpeed * [max T₀ 1].sum) :=
    Real.exp_pos _
  have hE1 : Real.exp (-cexC2Vehicle.rotationLerpSpeed * [max T₀ 1].sum) ≤ 1 := by
    rw [Real.exp_le_one_iff]
    nlinarith
  have hrotval : 0 ≤ (cexC2Vehicle.advanceList [max T₀ 1]).meshRotY := by
    rw [hrot, hd₀]
    have hrot0 : cexC2Vehicle.meshRotY = 0 := rfl
    rw [hrot0]
    nlinarith
  have hchle : (cexC2Vehicle.advanceList [max T₀ 1]).currentHeading ≤ 0 := by
    rw [hch]
    simp only [radToDeg, neg_nonpos]
    positivity
  have h90 : cexC2Vehicle.targetHeading = 90 := rfl
  rw [h90] at hhead
  have := abs_lt.mp hhead
  linarith [this.1]

/-- **C5** (confirmed).  `isPointInside` returns `true` for *every* point
whenever the readiness flag is false or no bounding box exists; after
`generate` completes on a model it decides membership in the inner-shrunk
bounds box.  (The embedding is a total function, so the query never
throws.) -/
theorem claim_C5_permissive_fallback (v : DrivableVolume) (p : Vec3) :
    (v.isReady = false → v.isPointInside p = true) ∧
    (v.boundingBox = none → v.isPointInside p = true) ∧
    (∀ m : MineModel,
      (v.generateFromMineModel (some m)).isPointInside p
        = Box3.containsPoint ⟨m.bounds.min.addScalar 0.5, m.bounds.max.subScalar 0.5⟩ p) := by
  refine ⟨?_, ?_, ?_⟩
  · intro h
    simp [DrivableVolume.isPointInside, h]
  · intro h
    cases hr : v.isReady <;> simp [DrivableVolume.isPointInside, h, hr]
  · intro m
    simp [DrivableVolume.generateFromMineModel, DrivableVolume.computeInnerBounds,
      DrivableVolume.isPointInside]

/-- Witness for C5: a freshly constructed (not yet ready) volume accepts a
point far outside any future bounding box. -/
theorem claim_C5_witness :
    DrivableVolume.init.isReady = false ∧
    DrivableVolume.init.isPointInside ⟨1000, -1000, 1000⟩ = true :=
  ⟨rfl, (claim_C5_permissive_fallback DrivableVolume.init ⟨1000, -1000, 1000⟩).1 rfl⟩

/-- **C6** (code bug).  The claim — and the code's own comment
`// Restore original materials`, together with the snapshot stored in
`originalMaterials` for exactly this purpose — require deselection to
restore the pre-selection material state bit-for-bit.  The code instead
resets the emissive channel to black/intensity `0`.  For the placeholder
`dump_truck` body material (original emissive `0xff6600`, intensity `1.0`,
as built by `createPlaceholderModel`), select-then-deselect leaves the
material different from the stored snapshot. -/
theorem claim_C6_restore_code_bug :
    sampleVehicle.originalMaterials = [⟨0xff6600, 0xff6600, 1⟩] ∧
    ((sampleVehicle.setSelected true).setSelected false).materials
      = [⟨0xff6600, 0x000000, 0⟩] ∧
    ((sampleVehicle.setSelected true).setSelected false).materials
      ≠ sampleVehicle.originalMaterials := by
  refine ⟨rfl, rfl, ?_⟩
  intro h
  simp only [sampleVehicle, Vehicle.setSelected, List.map_cons, List.map_nil] at h
  have := List.head_eq_of_cons_eq h
  have h2 := congrArg Material.emissiveIntensity this
  norm_num at h2

/-! ### Registry helper lemmas -/

theorem updateVehicleAt_keys (l : List (String × Vehicle)) (tid : String)
    (f : Vehicle → Vehicle) :
    (updateVehicleAt l tid f).map Prod.fst = l.map Prod.fst := by
  induction l with
  | nil => rfl
  | cons kv rest ih =>
      simp only [updateVehicleAt, List.map_cons] at ih ⊢
      by_cases h : kv.1 = tid <;> simp [h, ih]

theorem lookup_updateVehicleAt_none (l : List (String × Vehicle)) (tid x : String)
    (f : Vehicle → Vehicle) (h : l.lookup x = none) :
    (updateVehicleAt l tid f).lookup x = none := by
  induction l with
  | nil => rfl
  | cons kv rest ih =>
      obtain ⟨k, vv⟩ := kv
      simp only [List.lookup] at h
      by_cases hx : x == k
      · simp [hx] at h
      · have hx' : (x == k) = false := by simpa using hx
        rw [hx'] at h
        have ih' := ih h
        simp only [updateVehicleAt, List.map_cons] at ih' ⊢
        by_cases htid : k = tid
        · rw [show (if (k, vv).1 = tid then ((k, vv).1, f (k, vv).2) else (k, vv))
              = (k, f vv) from by simp [htid]]
          simp only [List.lookup, hx']
          exact ih'
        · rw [show (if (k, vv).1 = tid then ((k, vv).1, f (k, vv).2) else (k, vv))
              = (k, vv) from by simp [htid]]
          simp only [List.lookup, hx']
          exact ih'

/-- **C9** (corrected).  `removeVehicle` on an unknown id is a complete
no-op, and `selectVehicle` on an unknown id never throws, never changes the
registry membership, and never changes the recorded selection id; when
nothing is selected it is a complete no-op.  But — contrary to the claim —
when some vehicle *is* selected, `selectVehicle(unknownId)` strips that
vehicle's highlight before discovering the id is unknown (see the
counterexample), so existing vehicles' highlight state is not left
unchanged. -/
theorem claim_C9_unknown_id_amended (m : VehicleManager) (ghost : String)
    (h : m.vehicles.lookup ghost = none) :
    m.removeVehicle ghost = m ∧
    (m.selectVehicle ghost).selectedVehicleId = m.selectedVehicleId ∧
    (m.selectVehicle ghost).vehicles.map Prod.fst = m.vehicles.map Prod.fst ∧
    (m.selectedVehicleId = none → m.selectVehicle ghost = m) := by
  refine ⟨?_, ?_, ?_, ?_⟩
  · simp [VehicleManager.removeVehicle, h]
  · cases hsel : m.selectedVehicleId with
    | none => simp [VehicleManager.selectVehicle, hsel, h]
    | some sid =>
        by_cases hid : sid = ghost
        · simp [VehicleManager.selectVehicle, hsel, hid, h]
        · simp [VehicleManager.selectVehicle, hsel, hid, h,
            lookup_updateVehicleAt_none m.vehicles sid ghost _ h]
  · cases hsel : m.selectedVehicleId with
    | none => simp [VehicleManager.selectVehicle, hsel, h]
    | some sid =>
        by_cases hid : sid = ghost
        · simp [VehicleManager.selectVehicle, hsel, hid, h]
        · simp [VehicleManager.selectVehicle, hsel, hid, h,
            lookup_updateVehicleAt_none m.vehicles sid ghost _ h,
            updateVehicleAt_keys]
  · intro hnone
    simp [VehicleManager.selectVehicle, hnone, h]

/-- The manager used against C9 and by the C9 witness: one vehicle `A`,
currently selected and highlighted; the id `B` is unknown. -/
noncomputable def cexManager : VehicleManager :=
  { vehicles := [("A", { sampleVehicle with isSelected := true })],
    selectedVehicleId := some "A" }

/-- Counterexample to C9 as stated: `selectVehicle("B")` with unknown `B`
flips the registered vehicle `A`'s selection highlight off — the manager
state is *not* left unchanged. -/
theorem claim_C9_counterexample :
    cexManager.vehicles.lookup "B" = none ∧
    (cexManager.vehicles.lookup "A").map Vehicle.isSelected = some true ∧
    ((cexManager.selectVehicle "B").vehicles.lookup "A").map Vehicle.isSelected
      = some false := by
  refine ⟨rfl, rfl, rfl⟩

/-- Witness for the amended C9 at the concrete manager. -/
theorem claim_C9_witness :
    cexManager.vehicles.lookup "B" = none ∧
    (cexManager.removeVehicle "B" = cexManager ∧
      (cexManager.selectVehicle "B").selectedVehicleId = cexManager.selectedVehicleId ∧
      (cexManager.selectVehicle "B").vehicles.map Prod.fst
        = cexManager.vehicles.map Prod.fst ∧
      (cexManager.selectedVehicleId = none → cexManager.selectVehicle "B" = cexManager)) :=
  ⟨rfl, claim_C9_unknown_id_amended cexManager "B" rfl⟩

/-! ### Association-list and pool helper lemmas -/

theorem lookup_none_spec {β : Type} (l : List (String × β)) (x : String)
    (h : l.lookup x = none) : ∀ pr ∈ l, pr.1 ≠ x := by
  induction l with
  | nil => simp
  | cons kv rest ih =>
      obtain ⟨k, b⟩ := kv
      rw [List.lookup_cons] at h
      by_cases hx : x == k
      · simp [hx] at h
      · have hx' : (x == k) = false := by simpa using hx
        rw [hx'] at h
        intro pr hpr
        rcases List.mem_cons.mp hpr with rfl | hmem
        · simp only [ne_eq]
          intro hk
          rw [hk] at hx'
          simp at hx'
        · exact ih h pr hmem

theorem lookup_some_mem {β : Type} (l : List (String × β)) (x : String) (b : β)
    (h : l.lookup x = some b) : (x, b) ∈ l := by
  induction l with
  | nil => simp [List.lookup_nil] at h
  | cons kv rest ih =>
      obtain ⟨k, b₀⟩ := kv
      rw [List.lookup_cons] at h
      by_cases hx : x == k
      · have hx' : x = k := by simpa using hx
        rw [hx] at h
        simp only [Option.some.injEq] at h
        subst h
        subst hx'
        exact List.mem_cons_self _ _
      · have hx' : (x == k) = false := by simpa using hx
        rw [hx'] at h
        exact List.mem_cons_of_mem _ (ih h)

theorem lookup_append_right {β : Type} (l : List (String × β)) (x : String) (b : β)
    (h : l.lookup x = none) : (l ++ [(x, b)]).lookup x = some b := by
  induction l with
  | nil => simp [List.lookup_cons]
  | cons kv rest ih =>
      obtain ⟨k, b₀⟩ := kv
      rw [List.lookup_cons] at h
      by_cases hx : x == k
      · simp [hx] at h
      · have hx' : (x == k) = false := by simpa using hx
        rw [hx'] at h
        rw [List.cons_append, List.lookup_cons, hx']
        exact ih h

theorem nodup_key_unique {β : Type} (l : List (String × β))
    (hn : (l.map Prod.fst).Nodup) (x : String) (a b : β)
    (ha : (x, a) ∈ l) (hb : (x, b) ∈ l) : a = b := by
  induction l with
  | nil => simp at ha
  | cons kv rest ih =>
      simp only [List.map_cons, List.nodup_cons] at hn
      rcases List.mem_cons.mp ha with rfl | hma
      · rcases List.mem_cons.mp hb with heq | hmb
        · exact (congrArg Prod.snd heq).symm
        · have : (x, b).1 ∈ rest.map Prod.fst := List.mem_map_of_mem Prod.fst hmb
          exact absurd this (by simpa using hn.1)
      · rcases List.mem_cons.mp hb with rfl | hmb
        · have : (x, a).1 ∈ rest.map Prod.fst := List.mem_map_of_mem Prod.fst hma
          exact absurd this (by simpa using hn.1)
        · exact ih hn.2 hma hmb

theorem set_append_length {α : Type} (l : List α) (a b : α) :
    (l ++ [a]).set l.length b = l ++ [b] := by
  induction l with
  | nil => rfl
  | cons c rest ih => simp [List.set, ih]

theorem findIdx?_go_spec {α : Type} (pr : α → Bool) :
    ∀ (l : List α) (n i : ℕ), List.findIdx? pr l n = some i →
      n ≤ i ∧ ∃ e, l[i - n]? = some e ∧ pr e = true := by
  intro l
  induction l with
  | nil => intro n i h; simp [List.findIdx?_nil] at h
  | cons a as ih =>
      intro n i h
      rw [List.findIdx?_cons] at h
      by_cases hp : pr a
      · simp only [hp, if_pos, Option.some.injEq] at h
        subst h
        exact ⟨le_refl _, a, by simp, hp⟩
      · simp only [hp] at h
        rw [if_neg (by simp [hp])] at h
        obtain ⟨hle, e, he, hpe⟩ := ih (n + 1) i h
        refine ⟨by omega, e, ?_, hpe⟩
        have : i - n = (i - (n + 1)) + 1 := by omega
        rw [this]
        simpa using he

theorem findIdx?_some_spec {α : Type} (pr : α → Bool) (l : List α) (i : ℕ)
    (h : l.findIdx? pr = some i) : ∃ e, l[i]? = some e ∧ pr e = true := by
  obtain ⟨-, e, he, hpe⟩ := findIdx?_go_spec pr l 0 i h
  exact ⟨e, by simpa using he, hpe⟩

/-- One filtered-length bookkeeping lemma covering both flips of the in-use
flag at a valid index. -/
theorem filter_length_set (l : List PoolEntry) (i : ℕ) (e enew : PoolEntry)
    (hl : l[i]? = some e) :
    ((l.set i enew).filter (fun x => x.inUse)).length + (if e.inUse then 1 else 0)
      = (l.filter (fun x => x.inUse)).length + (if enew.inUse then 1 else 0) := by
  induction l generalizing i with
  | nil => simp at hl
  | cons a rest ih =>
      cases i with
      | zero =>
          simp only [List.getElem?_cons_zero, Option.some.injEq] at hl
          subst hl
          simp only [List.set]
          by_cases ha : a.inUse <;> by_cases hb : enew.inUse <;>
            simp [List.filter_cons, ha, hb]
      | succ j =>
          simp only [List.getElem?_cons_succ] at hl
          have := ih j hl
          simp only [List.set]
          by_cases ha : a.inUse <;> simp [List.filter_cons, ha] <;> omega

theorem filter_ne_length {β : Type} (l : List (String × β)) (x : String) (b : β)
    (hn : (l.map Prod.fst).Nodup) (hm : (x, b) ∈ l) :
    (l.filter (fun kv => kv.1 != x)).length + 1 = l.length := by
  induction l with
  | nil => simp at hm
  | cons kv rest ih =>
      simp only [List.map_cons, List.nodup_cons] at hn
      rcases List.mem_cons.mp hm with rfl | hmem
      · have hn1 : (x : String) ∉ rest.map Prod.fst := by simpa using hn.1
        have hrest : ∀ pr ∈ rest, pr.1 ≠ x := by
          intro pr hpr hk
          have hx : pr.1 ∈ rest.map Prod.fst := List.mem_map_of_mem Prod.fst hpr
          rw [hk] at hx
          exact hn1 hx
        have : rest.filter (fun kv => kv.1 != x) = rest := by
          apply List.filter_eq_self.mpr
          intro pr hpr
          simpa using hrest pr hpr
        simp [List.filter_cons, this]
      · have hn1 : kv.1 ∉ rest.map Prod.fst := hn.1
        have hk : kv.1 ≠ x := by
          intro hk
          apply hn1
          rw [hk]
          simpa using List.mem_map_of_mem Prod.fst hmem
        simp only [List.filter_cons]
        rw [if_pos (by simpa using hk)]
        simp only [List.length_cons]
        rw [← ih hn.2 hmem]

/-- Full case analysis of `acquire`, with the grow branch rewritten through
`set_append_length`. -/
theorem acquire_spec (p : TrailObjectPool) (vid vt : String) :
    (∃ td, p.activeTrails.lookup vid = some td ∧ p.acquire vid vt = (some td, p)) ∨
    (p.activeTrails.lookup vid = none ∧
      ∃ i e, p.geometryPool.findIdx? (fun e => !e.inUse) = some i ∧
        p.geometryPool[i]? = some e ∧ e.inUse = false ∧
        p.acquire vid vt = (some ⟨i, vt⟩,
          { p with geometryPool := p.geometryPool.set i ⟨true, some vid⟩,
                   activeTrails := p.activeTrails ++ [(vid, ⟨i, vt⟩)] })) ∨
    (p.activeTrails.lookup vid = none ∧
      p.geometryPool.findIdx? (fun e => !e.inUse) = none ∧
      p.geometryPool.length < p.maxSize ∧
      p.acquire vid vt = (some ⟨p.geometryPool.length, vt⟩,
        { p with geometryPool := p.geometryPool ++ [⟨true, some vid⟩],
                 activeTrails := p.activeTrails ++ [(vid, ⟨p.geometryPool.length, vt⟩)] })) ∨
    (p.activeTrails.lookup vid = none ∧
      p.geometryPool.findIdx? (fun e => !e.inUse) = none ∧
      ¬ p.geometryPool.length < p.maxSize ∧
      p.acquire vid vt = (none, p)) := by
  cases hl : p.activeTrails.lookup vid with
  | some td =>
      left
      exact ⟨td, rfl, by simp [TrailObjectPool.acquire, hl]⟩
  | none =>
      cases hf : p.geometryPool.findIdx? (fun e => !e.inUse) with
      | some i =>
          right; left
          obtain ⟨e, he, hpe⟩ := findIdx?_some_spec _ _ _ hf
          refine ⟨rfl, i, e, rfl, he, by simpa using hpe, ?_⟩
          simp [TrailObjectPool.acquire, hl, hf]
      | none =>
          by_cases hlen : p.geometryPool.length < p.maxSize
          · right; right; left
            refine ⟨rfl, rfl, hlen, ?_⟩
            simp only [TrailObjectPool.acquire, hl, hf, if_pos hlen,
              TrailObjectPool.createPoolEntry]
            rw [set_append_length]
          · right; right; right
            refine ⟨rfl, rfl, hlen, ?_⟩
            simp [TrailObjectPool.acquire, hl, hf, hlen]

/-- A successful `acquire` leaves the returned trail registered under the
vehicle id. -/
theorem acquire_lookup_after (p : TrailObjectPool) (vid vt : String) (td : TrailData)
    (h : (p.acquire vid vt).1 = some td) :
    (p.acquire vid vt).2.activeTrails.lookup vid = some td := by
  rcases acquire_spec p vid vt with ⟨td₀, hl, heq⟩ | ⟨hl, i, e, hf, he, hu, heq⟩ |
    ⟨hl, hf, hlen, heq⟩ | ⟨hl, hf, hlen, heq⟩
  · rw [heq] at h ⊢
    simp only [Option.some.injEq] at h
    subst h
    simpa using hl
  · rw [heq] at h ⊢
    simp only [Option.some.injEq] at h
    subst h
    exact lookup_append_right _ _ _ hl
  · rw [heq] at h ⊢
    simp only [Option.some.injEq] at h
    subst h
    exact lookup_append_right _ _ _ hl
  · rw [heq] at h
    simp at h

/-- **C7** (confirmed).  If an `acquire` call returned a trail slot for a
vehicle id, a second `acquire` for the same id (any requested type) without
an intervening `release` returns the *same* slot, leaves the pool state
untouched, and in particular does not increment the in-use count reported
by `getStats`. -/
theorem claim_C7_acquire_idempotent (p : TrailObjectPool) (vehicleId vt vt' : String)
    (td : TrailData) (h : (p.acquire vehicleId vt).1 = some td) :
    ((p.acquire vehicleId vt).2.acquire vehicleId vt').1 = some td ∧
    ((p.acquire vehicleId vt).2.acquire vehicleId vt').2 = (p.acquire vehicleId vt).2 ∧
    (((p.acquire vehicleId vt).2.acquire vehicleId vt').2.getStats).inUse
      = ((p.acquire vehicleId vt).2.getStats).inUse := by
  have hl := acquire_lookup_after p vehicleId vt td h
  have hgen : ∀ s : TrailObjectPool, s.activeTrails.lookup vehicleId = some td →
      s.acquire vehicleId vt' = (some td, s) := by
    intro s hs
    simp [TrailObjectPool.acquire, hs]
  rw [hgen _ hl]
  exact ⟨rfl, rfl, rfl⟩

/-- The concrete pool used by the C7 and C8 witnesses. -/
def wPool : TrailObjectPool := TrailObjectPool.construct 2 3

/-- Witness for C7: on a fresh pool of two slots, the first slot is handed
out once and the repeated acquire returns it unchanged. -/
theorem claim_C7_witness :
    (wPool.acquire "v1" "default").1 = some ⟨0, "default"⟩ ∧
    (((wPool.acquire "v1" "default").2.acquire "v1" "default").1 = some ⟨0, "default"⟩ ∧
      ((wPool.acquire "v1" "default").2.acquire "v1" "default").2
        = (wPool.acquire "v1" "default").2 ∧
      (((wPool.acquire "v1" "default").2.acquire "v1" "default").2.getStats).inUse
        = ((wPool.acquire "v1" "default").2.getStats).inUse) :=
  ⟨rfl, claim_C7_acquire_idempotent wPool "v1" "default" "default" ⟨0, "default"⟩ rfl⟩

theorem acquire_maxSize_eq (p : TrailObjectPool) (vid vt : String) :
    ((p.acquire vid vt).2).maxSize = p.maxSize := by
  rcases acquire_spec p vid vt with ⟨td₀, hl, heq⟩ | ⟨hl, i, e, hf, he, hu, heq⟩ |
    ⟨hl, hf, hlen, heq⟩ | ⟨hl, hf, hlen, heq⟩ <;> rw [heq]

theorem acquire_length_le (p : TrailObjectPool) (vid vt : String)
    (h : p.geometryPool.length ≤ p.maxSize) :
    ((p.acquire vid vt).2).geometryPool.length ≤ p.maxSize := by
  rcases acquire_spec p vid vt with ⟨td₀, hl, heq⟩ | ⟨hl, i, e, hf, he, hu, heq⟩ |
    ⟨hl, hf, hlen, heq⟩ | ⟨hl, hf, hlen, heq⟩ <;> rw [heq]
  · exact h
  · simpa [List.length_set] using h
  · simpa [List.length_append] using hlen
  · exact h

@[simp]
theorem applyAcquires_nil (p : TrailObjectPool) : p.applyAcquires [] = p := rfl

@[simp]
theorem applyAcquires_cons (p : TrailObjectPool) (op : String × String)
    (ops : List (String × String)) :
    p.applyAcquires (op :: ops) = ((p.acquire op.1 op.2).2).applyAcquires ops := rfl

theorem applyAcquires_bound : ∀ (ops : List (String × String)) (p : TrailObjectPool),
    p.geometryPool.length ≤ p.maxSize →
    (p.applyAcquires ops).geometryPool.length ≤ p.maxSize ∧
    (p.applyAcquires ops).maxSize = p.maxSize := by
  intro ops
  induction ops with
  | nil => intro p h; exact ⟨h, rfl⟩
  | cons op rest ih =>
      intro p h
      rw [applyAcquires_cons]
      have h₁ : ((p.acquire op.1 op.2).2).geometryPool.length ≤ ((p.acquire op.1 op.2).2).maxSize := by
        rw [acquire_maxSize_eq]
        exact acquire_length_le p op.1 op.2 h
      obtain ⟨ha, hb⟩ := ih ((p.acquire op.1 op.2).2) h₁
      rw [acquire_maxSize_eq] at ha hb
      exact ⟨ha, hb⟩

/-- An exhausted pool rejects a fresh id without changing state. -/
theorem acquire_exhausted (p : TrailObjectPool) (vid vt : String)
    (hfull : ∀ e ∈ p.geometryPool, e.inUse = true)
    (hlen : ¬ p.geometryPool.length < p.maxSize)
    (hfresh : p.activeTrails.lookup vid = none) :
    p.acquire vid vt = (none, p) := by
  have hf : p.geometryPool.findIdx? (fun e => !e.inUse) = none :=
    List.findIdx?_eq_none_iff.mpr (fun e he => by simp [hfull e he])
  simp [TrailObjectPool.acquire, hfresh, hf, hlen]

/-- **C8** (confirmed).  Starting from a pool constructed with
`initialSize ≤ maxSize`, no sequence of `acquire` calls ever grows the entry
list beyond `maxSize`; and once every one of the `maxSize` entries is in
use, an `acquire` for an id that holds no slot returns `null` and leaves the
pool unchanged (the embedding is total, so nothing throws). -/
theorem claim_C8_pool_bounded (initialSize maxSize : ℕ) (ops : List (String × String))
    (hle : initialSize ≤ maxSize) :
    ((TrailObjectPool.construct initialSize maxSize).applyAcquires ops).geometryPool.length
      ≤ maxSize ∧
    ∀ vid vt,
      (∀ e ∈ ((TrailObjectPool.construct initialSize maxSize).applyAcquires ops).geometryPool,
        e.inUse = true) →
      ((TrailObjectPool.construct initialSize maxSize).applyAcquires ops).geometryPool.length
        = maxSize →
      ((TrailObjectPool.construct initialSize maxSize).applyAcquires ops).activeTrails.lookup vid
        = none →
      ((TrailObjectPool.construct initialSize maxSize).applyAcquires ops).acquire vid vt
        = (none, (TrailObjectPool.construct initialSize maxSize).applyAcquires ops) := by
  have hstart : (TrailObjectPool.construct initialSize maxSize).geometryPool.length
      ≤ (TrailObjectPool.construct initialSize maxSize).maxSize := by
    simpa [TrailObjectPool.construct] using hle
  obtain ⟨hlen, hmax⟩ := applyAcquires_bound ops (TrailObjectPool.construct initialSize maxSize)
    hstart
  refine ⟨hlen, ?_⟩
  intro vid vt hfull hcap hfresh
  apply acquire_exhausted _ _ _ hfull _ hfresh
  rw [hcap, hmax]
  exact lt_irrefl _

/-- Witness for C8: a pool constructed with `initialSize = maxSize = 1`,
filled by one acquire; the next acquire for a new id fails gracefully. -/
theorem claim_C8_witness :
    1 ≤ 1 ∧
    ((TrailObjectPool.construct 1 1).applyAcquires [("a", "t")]).acquire "b" "t"
      = (none, (TrailObjectPool.construct 1 1).applyAcquires [("a", "t")]) :=
  ⟨le_refl 1,
    (claim_C8_pool_bounded 1 1 [("a", "t")] (le_refl 1)).2 "b" "t" (by decide) rfl rfl⟩

/-! ### Invariant preservation for C10 -/

theorem invariant_construct (i m : ℕ) : PoolInvariant (TrailObjectPool.construct i m) := by
  refine ⟨?_, ?_, ?_, ?_, ?_⟩
  · intro pr hpr
    simp [TrailObjectPool.construct] at hpr
  · simp [TrailObjectPool.construct]
  · intro j e hj hu
    simp only [TrailObjectPool.construct, List.getElem?_replicate] at hj
    by_cases hji : j < i
    · rw [if_pos hji] at hj
      simp only [Option.some.injEq] at hj
      rw [← hj] at hu
      simp at hu
    · rw [if_neg hji] at hj
      simp at hj
  · intro j e hj _
    simp only [TrailObjectPool.construct, List.getElem?_replicate] at hj
    by_cases hji : j < i
    · rw [if_pos hji] at hj
      simp only [Option.some.injEq] at hj
      rw [← hj]
    · rw [if_neg hji] at hj
      simp at hj
  · simp only [TrailObjectPool.construct]
    have : (List.replicate i (⟨false, none⟩ : PoolEntry)).filter (fun e => e.inUse) = [] := by
      apply List.filter_eq_nil_iff.mpr
      intro a ha
      rw [List.eq_of_mem_replicate ha]
      simp
    rw [this]
    rfl

theorem invariant_acquire (p : TrailObjectPool) (vid vt : String)
    (hp : PoolInvariant p) : PoolInvariant ((p.acquire vid vt).2) := by
  obtain ⟨h1, h2, h3, h4, h5⟩ := hp
  rcases acquire_spec p vid vt with ⟨td₀, hl, heq⟩ | ⟨hl, i, e, hf, he, hu, heq⟩ |
    ⟨hl, hf, hlen, heq⟩ | ⟨hl, hf, hlen, heq⟩ <;> rw [heq]
  · exact ⟨h1, h2, h3, h4, h5⟩
  · -- claim the free slot `i`
    have hi : i < p.geometryPool.length := (List.getElem?_eq_some.mp he).1
    have hfresh := lookup_none_spec _ _ hl
    refine ⟨?_, ?_, ?_, ?_, ?_⟩
    · intro pr hpr
      simp only at hpr ⊢
      rcases List.mem_append.mp hpr with hold | hnew
      · have hown := h1 pr hold
        have hne : pr.2.entry ≠ i := by
          intro hE
          rw [hE] at hown
          rw [hown] at he
          simp only [Option.some.injEq] at he
          rw [← he] at hu
          simp at hu
        rw [List.getElem?_set_ne (Ne.symm hne)]
        exact hown
      · simp only [List.mem_singleton] at hnew
        subst hnew
        simpa using List.getElem?_set_self hi
    · simp only [List.map_append, List.map_cons, List.map_nil]
      rw [List.nodup_append]
      refine ⟨h2, List.nodup_singleton _, ?_⟩
      intro a ha hb
      simp only [List.mem_singleton] at hb
      subst hb
      obtain ⟨pr, hpr, hpr1⟩ := List.mem_map.mp ha
      exact hfresh pr hpr hpr1
    · intro j e' hj hu'
      by_cases hji : j = i
      · subst hji
        exact ⟨(vid, ⟨j, vt⟩), List.mem_append_right _ (List.mem_singleton_self _), rfl⟩
      · rw [List.getElem?_set_ne (fun hE => hji hE.symm)] at hj
        obtain ⟨pr, hpr, hE⟩ := h3 j e' hj hu'
        exact ⟨pr, List.mem_append_left _ hpr, hE⟩
    · intro j e' hj hu'
      by_cases hji : j = i
      · subst hji
        rw [List.getElem?_set_self hi] at hj
        simp only [Option.some.injEq] at hj
        rw [← hj] at hu'
        simp at hu'
      · rw [List.getElem?_set_ne (fun hE => hji hE.symm)] at hj
        exact h4 j e' hj hu'
    · simp only [List.length_append, List.length_cons, List.length_nil]
      have hcount := filter_length_set p.geometryPool i e ⟨true, some vid⟩ he
      rw [hu] at hcount
      simp only [if_false, if_true, Bool.false_eq_true] at hcount
      omega
  · -- grow the pool by one claimed entry
    have hfresh := lookup_none_spec _ _ hl
    refine ⟨?_, ?_, ?_, ?_, ?_⟩
    · intro pr hpr
      simp only at hpr ⊢
      rcases List.mem_append.mp hpr with hold | hnew
      · have hown := h1 pr hold
        have hj : pr.2.entry < p.geometryPool.length := (List.getElem?_eq_some.mp hown).1
        rw [List.getElem?_append, if_pos hj]
        exact hown
      · simp only [List.mem_singleton] at hnew
        subst hnew
        simp only
        exact List.getElem?_concat_length p.geometryPool ⟨true, some vid⟩
    · simp only [List.map_append, List.map_cons, List.map_nil]
      rw [List.nodup_append]
      refine ⟨h2, List.nodup_singleton _, ?_⟩
      intro a ha hb
      simp only [List.mem_singleton] at hb
      subst hb
      obtain ⟨pr, hpr, hpr1⟩ := List.mem_map.mp ha
      exact hfresh pr hpr hpr1
    · intro j e' hj hu'
      rcases lt_trichotomy j p.geometryPool.length with hjl | hjl | hjl
      · rw [List.getElem?_append, if_pos hjl] at hj
        obtain ⟨pr, hpr, hE⟩ := h3 j e' hj hu'
        exact ⟨pr, List.mem_append_left _ hpr, hE⟩
      · subst hjl
        exact ⟨(vid, ⟨p.geometryPool.length, vt⟩),
          List.mem_append_right _ (List.mem_singleton_self _), rfl⟩
      · rw [List.getElem?_eq_none (by simp; omega)] at hj
        simp at hj
    · intro j e' hj hu'
      rcases lt_trichotomy j p.geometryPool.length with hjl | hjl | hjl
      · rw [List.getElem?_append, if_pos hjl] at hj
        exact h4 j e' hj hu'
      · subst hjl
        rw [List.getElem?_concat_length] at hj
        simp only [Option.some.injEq] at hj
        rw [← hj] at hu'
        simp at hu'
      · rw [List.getElem?_eq_none (by simp; omega)] at hj
        simp at hj
    · simp only [List.filter_append, List.length_append, List.length_cons, List.length_nil]
      have : (List.filter (fun x => x.inUse) [(⟨true, some vid⟩ : PoolEntry)]).length = 1 := rfl
      rw [this]
      omega
  · exact ⟨h1, h2, h3, h4, h5⟩

theorem invariant_release (p : TrailObjectPool) (vid : String)
    (hp : PoolInvariant p) : PoolInvariant (p.release vid) := by
  obtain ⟨h1, h2, h3, h4, h5⟩ := hp
  cases hl : p.activeTrails.lookup vid with
  | none =>
      simp only [TrailObjectPool.release, hl]
      exact ⟨h1, h2, h3, h4, h5⟩
  | some td =>
      simp only [TrailObjectPool.release, hl]
      have hmem : (vid, td) ∈ p.activeTrails := lookup_some_mem _ _ _ hl
      have hown : p.geometryPool[td.entry]? = some ⟨true, some vid⟩ := h1 (vid, td) hmem
      have hi : td.entry < p.geometryPool.length := (List.getElem?_eq_some.mp hown).1
      refine ⟨?_, ?_, ?_, ?_, ?_⟩
      · intro pr hpr
        simp only at hpr ⊢
        have hpr' := List.mem_filter.mp hpr
        have hprne : pr.1 ≠ vid := by simpa using hpr'.2
        have hown' := h1 pr hpr'.1
        have hne : pr.2.entry ≠ td.entry := by
          intro hE
          rw [hE, hown] at hown'
          simp only [Option.some.injEq, PoolEntry.mk.injEq, Option.some.injEq] at hown'
          exact hprne hown'.2.symm
        rw [List.getElem?_set_ne (Ne.symm hne)]
        exact hown'
      · exact List.Nodup.sublist ((List.filter_sublist _).map _) h2
      · intro j e' hj hu'
        by_cases hji : j = td.entry
        · subst hji
          rw [List.getElem?_set_self hi] at hj
          simp only [Option.some.injEq] at hj
          rw [← hj] at hu'
          simp at hu'
        · rw [List.getElem?_set_ne (fun hE => hji hE.symm)] at hj
          obtain ⟨pr, hpr, hE⟩ := h3 j e' hj hu'
          have hprne : pr.1 ≠ vid := by
            intro hk
            have : pr.2 = td := by
              apply nodup_key_unique p.activeTrails h2 vid
              · rw [← hk]
                exact (by simpa using hpr : (pr.1, pr.2) ∈ p.activeTrails)
              · exact hmem
            rw [← hE, this] at hji
            exact hji rfl
          refine ⟨pr, List.mem_filter.mpr ⟨hpr, by simpa using hprne⟩, hE⟩
      · intro j e' hj hu'
        by_cases hji : j = td.entry
        · subst hji
          rw [List.getElem?_set_self hi] at hj
          simp only [Option.some.injEq] at hj
          rw [← hj]
        · rw [List.getElem?_set_ne (fun hE => hji hE.symm)] at hj
          exact h4 j e' hj hu'
      · dsimp only
        have hcount := filter_length_set p.geometryPool td.entry ⟨true, some vid⟩
          ⟨false, none⟩ hown
        simp only [if_true, if_false, Bool.false_eq_true] at hcount
        have hactive := filter_ne_length p.activeTrails vid td h2 hmem
        omega

theorem clearFold_cases :
    ∀ (trails : List (String × TrailData)) (g : List PoolEntry) (j : ℕ),
    (trails.foldl (fun g kv => g.set kv.2.entry ⟨false, none⟩) g)[j]? = g[j]? ∨
    (trails.foldl (fun g kv => g.set kv.2.entry ⟨false, none⟩) g)[j]? = some ⟨false, none⟩ := by
  intro trails
  induction trails with
  | nil => intro g j; left; rfl
  | cons kv rest ih =>
      intro g j
      simp only [List.foldl_cons]
      rcases ih (g.set kv.2.entry ⟨false, none⟩) j with h | h
      · rw [h, List.getElem?_set]
        by_cases hj : kv.2.entry = j
        · by_cases hlt : kv.2.entry < g.length
          · right
            rw [if_pos hj, if_pos hlt]
          · left
            rw [if_pos hj, if_neg hlt]
            rw [List.getElem?_eq_none (by omega)]
        · left
          rw [if_neg hj]
      · right
        exact h

theorem clearFold_owned :
    ∀ (trails : List (String × TrailData)) (g : List PoolEntry) (kv : String × TrailData),
    kv ∈ trails → kv.2.entry < g.length →
    (trails.foldl (fun g kv => g.set kv.2.entry ⟨false, none⟩) g)[kv.2.entry]?
      = some ⟨false, none⟩ := by
  intro trails
  induction trails with
  | nil => intro g kv hmem; simp at hmem
  | cons kv₀ rest ih =>
      intro g kv hmem hlt
      simp only [List.foldl_cons]
      rcases List.mem_cons.mp hmem with rfl | hmem'
      · rcases clearFold_cases rest (g.set kv.2.entry ⟨false, none⟩) kv.2.entry with h | h
        · rw [h, List.getElem?_set_self hlt]
        · exact h
      · exact ih (g.set kv₀.2.entry ⟨false, none⟩) kv hmem' (by simpa using hlt)

theorem invariant_clearAll (p : TrailObjectPool) (hp : PoolInvariant p) :
    PoolInvariant p.clearAll := by
  obtain ⟨h1, h2, h3, h4, h5⟩ := hp
  have hfree : ∀ (j : ℕ) (e' : PoolEntry),
      (p.activeTrails.foldl (fun g kv => g.set kv.2.entry ⟨false, none⟩)
        p.geometryPool)[j]? = some e' →
      e'.inUse = false ∧ e'.ownerId = none := by
    intro j e' hj
    rcases clearFold_cases p.activeTrails p.geometryPool j with hc | hc
    · rw [hc] at hj
      by_cases hu : e'.inUse
      · obtain ⟨pr, hpr, hE⟩ := h3 j e' hj hu
        have hjl : j < p.geometryPool.length := (List.getElem?_eq_some.mp hj).1
        have := clearFold_owned p.activeTrails p.geometryPool pr hpr (by rw [hE]; exact hjl)
        rw [hE] at this
        rw [hc] at this
        rw [hj] at this
        simp only [Option.some.injEq] at this
        rw [this] at hu
        simp at hu
      · exact ⟨by simpa using hu, h4 j e' hj (by simpa using hu)⟩
    · rw [hc] at hj
      simp only [Option.some.injEq] at hj
      rw [← hj]
      exact ⟨rfl, rfl⟩
  refine ⟨?_, ?_, ?_, ?_, ?_⟩
  · intro pr hpr
    simp [TrailObjectPool.clearAll] at hpr
  · simp [TrailObjectPool.clearAll]
  · intro j e' hj hu'
    simp only [TrailObjectPool.clearAll] at hj
    rw [(hfree j e' hj).1] at hu'
    simp at hu'
  · intro j e' hj _
    simp only [TrailObjectPool.clearAll] at hj
    exact (hfree j e' hj).2
  · simp only [TrailObjectPool.clearAll]
    have : (p.activeTrails.foldl (fun g kv => g.set kv.2.entry ⟨false, none⟩)
        p.geometryPool).filter (fun e => e.inUse) = [] := by
      apply List.filter_eq_nil_iff.mpr
      intro a ha
      obtain ⟨n, hn⟩ := List.mem_iff_getElem?.mp ha
      rw [(hfree n a hn).1]
      simp
    rw [this]
    rfl

theorem invariant_applyOps : ∀ (ops : List PoolOp) (p : TrailObjectPool),
    PoolInvariant p → PoolInvariant (p.applyOps ops) := by
  intro ops
  induction ops with
  | nil => intro p hp; exact hp
  | cons op rest ih =>
      intro p hp
      have h₁ : PoolInvariant (p.applyOp op) := by
        cases op with
        | acq vid vt => exact invariant_acquire p vid vt hp
        | rel vid => exact invariant_release p vid hp
        | clear => exact invariant_clearAll p hp
      exact ih _ h₁

/-- **C10** (confirmed).  After any sequence of `acquire`, `release` and
`clearAll` operations on a freshly constructed pool, the in-use entries and
the active-trails map are in one-to-one correspondence: each trail owns the
entry it references and that entry stores the owning vehicle id, every
in-use entry is owned by some active trail, free entries store no id, and
the in-use count reported by `getStats` equals its active-trail count. -/
theorem claim_C10_pool_trail_consistency (initialSize maxSize : ℕ) (ops : List PoolOp) :
    PoolInvariant ((TrailObjectPool.construct initialSize maxSize).applyOps ops) ∧
    (((TrailObjectPool.construct initialSize maxSize).applyOps ops).getStats).inUse
      = (((TrailObjectPool.construct initialSize maxSize).applyOps ops).getStats).activeTrails := by
  have hinv := invariant_applyOps ops _ (invariant_construct initialSize maxSize)
  exact ⟨hinv, by simpa [TrailObjectPool.getStats] using hinv.2.2.2.2⟩

end MineViz
